import Mathlib

/-!
Verification of the chunk-manifest layer (weed/filer/filechunk_manifest.go).

Shallow embedding conventions:
* `FileChunk` models `filer_pb.FileChunk` restricted to the fields this file
  reads or writes (`fileId` stands for the file-id string, errors are `Nat`
  codes, byte payloads are `List Nat`).
* External collaborators (id lookup, `util.ReadUrlAsStream` transport,
  `proto.Marshal`/`proto.Unmarshal`, the chunk store function) are parameters
  of the embedded functions, exactly as the spec treats them.
* Machine integers: offsets are `int64`, modelled as `Int`; sizes are
  `uint64`, modelled as `Nat`; the one place the source converts a difference
  to `uint64` (`mergeIntoManifest`) takes the value modulo `2 ^ 64`.
-/

/-- Model of `filer_pb.FileChunk` restricted to the fields read or written by
`filechunk_manifest.go`: file id (opaque), logical `Offset` (int64), `Size`
(uint64), `CipherKey`, `IsCompressed` and `IsChunkManifest`. -/
structure FileChunk where
  fileId : Nat
  offset : Int
  size : Nat
  cipherKey : List Nat
  isCompressed : Bool
  isChunkManifest : Bool
deriving DecidableEq, Repr

/-- Embeds the constant `ManifestBatch = 10000`. -/
def ManifestBatch : Nat := 10000

/-- Embeds `HasChunkManifest`: true iff some chunk has `IsChunkManifest` set. -/
def HasChunkManifest (chunks : List FileChunk) : Bool :=
  chunks.any (fun c => c.isChunkManifest)

/-- Embeds `SeparateManifestChunks`: the stable partition of a chunk list into
(manifest chunks, non-manifest chunks), preserving relative order. -/
def SeparateManifestChunks (chunks : List FileChunk) :
    List FileChunk × List FileChunk :=
  (chunks.filter (fun c => c.isChunkManifest),
   chunks.filter (fun c => !c.isChunkManifest))

/-- The constant `math.MaxInt64`, initial value of `minOffset` in
`mergeIntoManifest`. -/
def int64Max : Int := 9223372036854775807

/-- The constant `math.MinInt64`, initial value of `maxOffset` in
`mergeIntoManifest`. -/
def int64Min : Int := -9223372036854775808

/-- The modulus of `uint64` conversion. -/
def twoPow64 : Int := 18446744073709551616

/-- One iteration of the `minOffset` update in `mergeIntoManifest`:
`if minOffset > int64(chunk.Offset) { minOffset = chunk.Offset }`. -/
def minOffsetStep (m : Int) (c : FileChunk) : Int :=
  if m > c.offset then c.offset else m

/-- One iteration of the `maxOffset` update in `mergeIntoManifest`:
`if maxOffset < int64(chunk.Size)+chunk.Offset { maxOffset = ... }`. -/
def maxOffsetStep (m : Int) (c : FileChunk) : Int :=
  if m < c.offset + (c.size : Int) then c.offset + (c.size : Int) else m

/-- Embeds `mergeIntoManifest`.  `marshal` stands for
`proto.Marshal(&filer_pb.FileChunkManifest{Chunks: dataChunks})` (the container
format is an external collaborator; `filer_pb.BeforeEntrySerialization` only
re-encodes file ids and touches none of the modelled fields), and `saveFunc`
for the external store function; each may fail with an error code.  On success
the returned descriptor is stamped with `IsChunkManifest = true`,
`Offset = minOffset`, `Size = uint64(maxOffset - minOffset)` where
`minOffset`/`maxOffset` are folded over the batch exactly as the source's
single loop does, starting from `math.MaxInt64`/`math.MinInt64`. -/
def mergeIntoManifest (marshal : List FileChunk → Except Nat (List Nat))
    (saveFunc : List Nat → Except Nat FileChunk)
    (dataChunks : List FileChunk) : Except Nat FileChunk :=
  match marshal dataChunks with
  | .error serErr => .error serErr
  | .ok data =>
    let mm := dataChunks.foldl
      (fun (p : Int × Int) c => (minOffsetStep p.1 c, maxOffsetStep p.2 c))
      (int64Max, int64Min)
    match saveFunc data with
    | .error e => .error e
    | .ok c =>
      .ok ⟨c.fileId, mm.1, ((mm.2 - mm.1) % twoPow64).toNat,
           c.cipherKey, c.isCompressed, true⟩

/-- Embeds the batching loop of `doMaybeManifestize`
(`for i := 0; i+mergeFactor <= len(dataChunks); i += mergeFactor`): take
consecutive batches of exactly `mf` leaf chunks while at least `mf` remain,
merge each through `mergefn`, abort on the first merge error, and return the
synthesized manifest chunks together with the remainder.  The Go loop
terminates by dropping `mf ≥ 1` chunks per iteration (it diverges when
`mergeFactor = 0`, a case no caller exercises: the guard `0 < mf` and the
structural `fuel` — always instantiated with `dataChunks.length`, which the
sufficiency lemmas below show is enough — only make the embedding total). -/
def batchLoop (mergefn : List FileChunk → Except Nat FileChunk) (mf : Nat) :
    Nat → List FileChunk → Except Nat (List FileChunk × List FileChunk)
  | 0, ds => .ok ([], ds)
  | fuel + 1, ds =>
    if 0 < mf ∧ mf ≤ ds.length then
      match mergefn (ds.take mf) with
      | .error e => .error e
      | .ok mc =>
        match batchLoop mergefn mf fuel (ds.drop mf) with
        | .error e => .error e
        | .ok msrem => .ok (mc :: msrem.1, msrem.2)
    else .ok ([], ds)

/-- Embeds `doMaybeManifestize`: partition the input into leaf chunks
(`dataChunks`) and pass-through manifest chunks (seeded into the output), run
the batching loop over the leaf chunks, and on success return pass-through
manifests ++ synthesized manifests ++ remaining leaves; on a merge error
return `(dataChunks, err)`. -/
def doMaybeManifestize (mergefn : List FileChunk → Except Nat FileChunk)
    (inputChunks : List FileChunk) (mergeFactor : Nat) :
    List FileChunk × Option Nat :=
  let dataChunks := inputChunks.filter (fun c => !c.isChunkManifest)
  let passThrough := inputChunks.filter (fun c => c.isChunkManifest)
  match batchLoop mergefn mergeFactor dataChunks.length dataChunks with
  | .error e => (dataChunks, some e)
  | .ok msrem => (passThrough ++ msrem.1 ++ msrem.2, none)

/-- Embeds `MaybeManifestize`:
`doMaybeManifestize(saveFunc, inputChunks, ManifestBatch, mergeIntoManifest)`. -/
def MaybeManifestize (marshal : List FileChunk → Except Nat (List Nat))
    (saveFunc : List Nat → Except Nat FileChunk)
    (inputChunks : List FileChunk) : List FileChunk × Option Nat :=
  doMaybeManifestize (mergeIntoManifest marshal saveFunc) inputChunks ManifestBatch

/-! ## Replica fetcher: shared retry/backoff engine

Both `retriedFetchChunkData` and `retriedStreamFetchChunkData` call the
external transport `util.ReadUrlAsStream(url, cipherKey, isGzipped,
isFullChunk, offset, size, onData)`.  One transport attempt is modelled by an
`AttemptOutcome` — the sequence of byte slices the transport passes to the
`onData` callback, plus the `(shouldRetry, err)` pair it returns — and a whole
transport by a function from the global attempt counter (attempts numbered
across locations and rounds) to outcomes.  The URL string manipulation
(`%`-escaping, the `?readDeleted=true` suffix) only shapes the external
request and never touches engine state, so replica locations are modelled as
an opaque list whose length is what the round loop consumes. -/

/-- One call of `util.ReadUrlAsStream` as seen by the retry engines: the data
slices delivered to the callback, and the returned `(shouldRetry, err)`. -/
structure AttemptOutcome where
  deliveries : List (List Nat)
  shouldRetry : Bool
  err : Option Nat
deriving DecidableEq, Repr

/-- The constant `time.Second` in nanoseconds, the initial `waitTime` of both
retry loops. -/
def second : Nat := 1000000000

/-- The backoff sequence: `waitTime` starts at `time.Second` and each
unsuccessful round executes `waitTime += waitTime / 2`. -/
def waitSeq : Nat → Nat
  | 0 => second
  | i + 1 => waitSeq i + waitSeq i / 2

/-- State of `retriedFetchChunkData`: the caller's buffer, the count `n` of
bytes filled, the last `(shouldRetry, err)` pair, and the number `k` of
transport attempts made so far. -/
structure RangeState where
  buffer : List Nat
  n : Nat
  shouldRetry : Bool
  err : Option Nat
  k : Nat
deriving DecidableEq, Repr

/-- The `onData` callback of `retriedFetchChunkData`:
`if n < len(buffer) { x := copy(buffer[n:], data); n += x }` — `copy` fills
`min (len buffer - n) (len data)` bytes at position `n`. -/
def rangeWrite (buffer : List Nat) (n : Nat) (data : List Nat) :
    List Nat × Nat :=
  if n < buffer.length then
    let x := min (buffer.length - n) data.length
    (buffer.take n ++ data.take x ++ buffer.drop (n + x), n + x)
  else (buffer, n)

/-- Feeds an attempt's deliveries through `rangeWrite` in order. -/
def rangeDeliver : List (List Nat) → List Nat → Nat → List Nat × Nat
  | [], buffer, n => (buffer, n)
  | d :: ds, buffer, n =>
    let bn := rangeWrite buffer n d
    rangeDeliver ds bn.1 bn.2

/-- One round of `retriedFetchChunkData`'s inner `for _, urlString := range
urlStrings` loop: each attempt resets `n = 0`, streams into the buffer, then
`if !shouldRetry { break }; if err != nil { log } else { break }`. -/
def rangeRound (transport : Nat → AttemptOutcome) :
    List Unit → RangeState → RangeState
  | [], s => s
  | _ :: rest, s =>
    let o := transport s.k
    let bn := rangeDeliver o.deliveries s.buffer 0
    let s1 : RangeState := ⟨bn.1, bn.2, o.shouldRetry, o.err, s.k + 1⟩
    if o.shouldRetry then
      if o.err.isSome then rangeRound transport rest s1 else s1
    else s1

/-- The outer backoff loop of `retriedFetchChunkData`:
`for waitTime := time.Second; waitTime < ceiling; waitTime += waitTime / 2`,
with `if err != nil && shouldRetry { sleep } else { break }` after each round.
The Go loop exits exactly when `waitSeq i` reaches the ceiling
(`util.RetryWaitTime`); the structural `fuel`, always instantiated with
`ceiling`, only totalizes the embedding and is shown sufficient below. -/
def rangeLoop (ceiling : Nat) (transport : Nat → AttemptOutcome)
    (urls : List Unit) : Nat → Nat → RangeState → RangeState
  | 0, _, s => s
  | fuel + 1, i, s =>
    if waitSeq i < ceiling then
      let s1 := rangeRound transport urls s
      if s1.err.isSome && s1.shouldRetry then
        rangeLoop ceiling transport urls fuel (i + 1) s1
      else s1
    else s

/-- Embeds `retriedFetchChunkData` (range fetch mode).  `ceiling` is the
configured `util.RetryWaitTime`; initial state: count `n = 0`,
`shouldRetry = false`, `err = nil`, no attempts made. -/
def retriedFetchChunkData (ceiling : Nat) (transport : Nat → AttemptOutcome)
    (urls : List Unit) (buffer : List Nat) : RangeState :=
  rangeLoop ceiling transport urls ceiling 0 ⟨buffer, 0, false, none, 0⟩

/-- State of `retriedStreamFetchChunkData`: the sink (an `io.Writer`, modelled
as the list of bytes written so far), the session counter `totalWritten`, the
last `(shouldRetry, err)` pair, and the attempt counter `k`. -/
structure StreamState where
  sink : List Nat
  totalWritten : Nat
  shouldRetry : Bool
  err : Option Nat
  k : Nat
deriving DecidableEq, Repr

/-- The `onData` callback of `retriedStreamFetchChunkData`: skip the first
`totalWritten - localProcesed` bytes of the delivery if the current attempt
lags behind what was already committed, write the remainder to the sink, and
count it into both counters.  Returns (sink, totalWritten, localProcesed). -/
def streamWrite (sink : List Nat) (totalWritten localProcesed : Nat)
    (data : List Nat) : List Nat × Nat × Nat :=
  if localProcesed < totalWritten then
    let toBeSkipped := totalWritten - localProcesed
    if data.length ≤ toBeSkipped then
      (sink, totalWritten, localProcesed + data.length)
    else
      let d := data.drop toBeSkipped
      (sink ++ d, totalWritten + d.length, localProcesed + toBeSkipped + d.length)
  else (sink ++ data, totalWritten + data.length, localProcesed + data.length)

/-- Feeds an attempt's deliveries through `streamWrite` in order. -/
def streamDeliver : List (List Nat) → List Nat → Nat → Nat →
    List Nat × Nat × Nat
  | [], sink, tw, lp => (sink, tw, lp)
  | d :: ds, sink, tw, lp =>
    let r := streamWrite sink tw lp d
    streamDeliver ds r.1 r.2.1 r.2.2

/-- One round of `retriedStreamFetchChunkData`'s location loop: each attempt
declares a fresh `localProcesed = 0`, streams through the dedup callback, then
applies the same break conditions as the range engine. -/
def streamRound (transport : Nat → AttemptOutcome) :
    List Unit → StreamState → StreamState
  | [], s => s
  | _ :: rest, s =>
    let o := transport s.k
    let r := streamDeliver o.deliveries s.sink s.totalWritten 0
    let s1 : StreamState := ⟨r.1, r.2.1, o.shouldRetry, o.err, s.k + 1⟩
    if o.shouldRetry then
      if o.err.isSome then streamRound transport rest s1 else s1
    else s1

/-- The outer backoff loop of `retriedStreamFetchChunkData`; identical control
flow to `rangeLoop`. -/
def streamLoop (ceiling : Nat) (transport : Nat → AttemptOutcome)
    (urls : List Unit) : Nat → Nat → StreamState → StreamState
  | 0, _, s => s
  | fuel + 1, i, s =>
    if waitSeq i < ceiling then
      let s1 := streamRound transport urls s
      if s1.err.isSome && s1.shouldRetry then
        streamLoop ceiling transport urls fuel (i + 1) s1
      else s1
    else s

/-- Embeds `retriedStreamFetchChunkData` (whole-chunk streaming fetch mode).
`sink0` is the writer's prior contents; `totalWritten` starts at 0,
`shouldRetry = false`, `err = nil`. -/
def retriedStreamFetchChunkData (ceiling : Nat)
    (transport : Nat → AttemptOutcome) (urls : List Unit)
    (sink0 : List Nat) : StreamState :=
  streamLoop ceiling transport urls ceiling 0 ⟨sink0, 0, false, none, 0⟩

/-- The list of consecutive full batches of size `mf` of a list, in order
(spec §4.4 step 2 wording: leaf chunks grouped into consecutive fixed-size
batches; the remainder smaller than `mf` is not a batch). -/
def fullBatches (mf : Nat) : Nat → List FileChunk → List (List FileChunk)
  | 0, _ => []
  | fuel + 1, ds =>
    if 0 < mf ∧ mf ≤ ds.length then
      ds.take mf :: fullBatches mf fuel (ds.drop mf)
    else []

/-! ## Manifest resolver

`ResolveOneChunkManifest` fetches a manifest chunk's whole payload
(`fetchWholeChunk` = id lookup + `retriedStreamFetchChunkData`) and decodes it
(`proto.Unmarshal` + `filer_pb.AfterEntryDeserialization`, which only decodes
file ids).  The lookup, the transport behind the fetch, and the container
decoding are external collaborators, so the whole pipeline is abstracted as a
`decode` oracle returning the manifest's child chunks or an error code, as
spec §4.2.1 does.

`ResolveChunkManifest`'s loop body for a manifest chunk, as written in the
source, is

    manifestChunks = append(manifestChunks, chunk)
    dataChunks, manifestChunks, subErr := ResolveChunkManifest(lookupFileIdFn, resolvedChunks, startOffset, stopOffset)
    if subErr != nil { return chunks, nil, subErr }
    dataChunks = append(dataChunks, subDataChunks...)
    manifestChunks = append(manifestChunks, subManifestChunks...)

The `:=` redeclares `dataChunks`/`manifestChunks` as loop-local variables
shadowing the named results, and `subDataChunks`/`subManifestChunks` are
declared nowhere — this Go does not compile.  `resolveList` below embeds the
nearest reading of that text (the recursive call is made and its error is
propagated, but its result lists land in shadowed locals that die with the
iteration, so they are never merged into the caller's accumulators);
`resolveListMerged` embeds the behaviour the spec describes.  The Go recursion
carries no depth guard and diverges on cyclically nested manifests; `fuel`
bounds the manifest nesting depth to totalize the embedding (spec §4.2 step 4
requires finite nesting), and exhausting it surfaces the reserved error code
`manifestDepthErr`. -/

/-- Reserved error code returned when the embedding's nesting-depth fuel runs
out (not a behaviour of the Go source, which has no guard). -/
def manifestDepthErr : Nat := 999

/-- Embeds `ResolveOneChunkManifest`: a non-manifest chunk defensively yields
an empty child list; a manifest chunk is fetched and decoded through the
`decode` oracle (lookup + whole-chunk fetch + unmarshal), which may fail. -/
def ResolveOneChunkManifest (decode : FileChunk → Except Nat (List FileChunk))
    (chunk : FileChunk) : Except Nat (List FileChunk) :=
  if chunk.isChunkManifest = false then .ok []
  else decode chunk

/-- The loop of `ResolveChunkManifest` over its chunk list, as the source text
reads (see the section comment: recursive results are shadowed away).
`expand` is the resolver applied to a decoded child list at one less nesting
depth.  Returns `(dataChunks, manifestChunks)` accumulated in encounter order,
or the first error. -/
def resolveList (expand : List FileChunk → Except Nat (List FileChunk × List FileChunk))
    (decode : FileChunk → Except Nat (List FileChunk))
    (startOffset stopOffset : Int) :
    List FileChunk → Except Nat (List FileChunk × List FileChunk)
  | [] => .ok ([], [])
  | c :: rest =>
    if max c.offset startOffset ≥ min (c.offset + (c.size : Int)) stopOffset then
      resolveList expand decode startOffset stopOffset rest
    else if c.isChunkManifest = false then
      match resolveList expand decode startOffset stopOffset rest with
      | .error e => .error e
      | .ok dm => .ok (c :: dm.1, dm.2)
    else
      match ResolveOneChunkManifest decode c with
      | .error e => .error e
      | .ok resolved =>
        match expand resolved with
        | .error e => .error e
        | .ok _sub =>
          match resolveList expand decode startOffset stopOffset rest with
          | .error e => .error e
          | .ok dm => .ok (dm.1, c :: dm.2)

/-- The resolver recursion at bounded manifest nesting depth, source reading
(shadowed sub-results). -/
def resolveAux (decode : FileChunk → Except Nat (List FileChunk))
    (startOffset stopOffset : Int) :
    Nat → List FileChunk → Except Nat (List FileChunk × List FileChunk)
  | 0 => resolveList (fun _ => .error manifestDepthErr) decode startOffset stopOffset
  | fuel + 1 => resolveList (resolveAux decode startOffset stopOffset fuel) decode startOffset stopOffset

/-- Embeds `ResolveChunkManifest` (source reading): on any error anywhere in
the traversal the call returns `(chunks, nil, err)` — the original input list,
no traversed manifests — otherwise the accumulated
`(dataChunks, manifestChunks, nil)`. -/
def ResolveChunkManifest (decode : FileChunk → Except Nat (List FileChunk))
    (fuel : Nat) (chunks : List FileChunk) (startOffset stopOffset : Int) :
    List FileChunk × List FileChunk × Option Nat :=
  match resolveAux decode startOffset stopOffset fuel chunks with
  | .error e => (chunks, [], some e)
  | .ok dm => (dm.1, dm.2, none)

/-- Modelled from the spec: §4.2 step 3 (and §9), the behaviour the broken
source lines intend — a manifest chunk passing the range test is recorded in
the traversed-manifest list and the recursive results for its decoded children
are merged into the caller's running accumulators at the point of encounter.
Identical to `resolveList` except that `expand`'s results are appended instead
of discarded. -/
def resolveListMerged (expand : List FileChunk → Except Nat (List FileChunk × List FileChunk))
    (decode : FileChunk → Except Nat (List FileChunk))
    (startOffset stopOffset : Int) :
    List FileChunk → Except Nat (List FileChunk × List FileChunk)
  | [] => .ok ([], [])
  | c :: rest =>
    if max c.offset startOffset ≥ min (c.offset + (c.size : Int)) stopOffset then
      resolveListMerged expand decode startOffset stopOffset rest
    else if c.isChunkManifest = false then
      match resolveListMerged expand decode startOffset stopOffset rest with
      | .error e => .error e
      | .ok dm => .ok (c :: dm.1, dm.2)
    else
      match ResolveOneChunkManifest decode c with
      | .error e => .error e
      | .ok resolved =>
        match expand resolved with
        | .error e => .error e
        | .ok sub =>
          match resolveListMerged expand decode startOffset stopOffset rest with
          | .error e => .error e
          | .ok dm => .ok (sub.1 ++ dm.1, c :: (sub.2 ++ dm.2))

/-- Modelled from the spec: the resolver recursion with depth-first in-place
merging, at bounded nesting depth. -/
def resolveAuxMerged (decode : FileChunk → Except Nat (List FileChunk))
    (startOffset stopOffset : Int) :
    Nat → List FileChunk → Except Nat (List FileChunk × List FileChunk)
  | 0 => resolveListMerged (fun _ => .error manifestDepthErr) decode startOffset stopOffset
  | fuel + 1 => resolveListMerged (resolveAuxMerged decode startOffset stopOffset fuel) decode startOffset stopOffset

/-- Modelled from the spec: `Resolve` with the intended depth-first merge. -/
def ResolveChunkManifestMerged (decode : FileChunk → Except Nat (List FileChunk))
    (fuel : Nat) (chunks : List FileChunk) (startOffset stopOffset : Int) :
    List FileChunk × List FileChunk × Option Nat :=
  match resolveAuxMerged decode startOffset stopOffset fuel chunks with
  | .error e => (chunks, [], some e)
  | .ok dm => (dm.1, dm.2, none)

/-! ## Concrete instances used by witnesses and counterexamples -/

/-- Outer manifest chunk of the nested error scenario (decodes to
`[innerManifest]`). -/
def outerManifest : FileChunk := ⟨1, 0, 10, [], false, true⟩

/-- Inner (depth-2) manifest chunk of the nested error scenario (its decode
fails). -/
def innerManifest : FileChunk := ⟨2, 0, 10, [], false, true⟩

/-- Decode oracle for the nested error scenario: the outer manifest decodes to
the inner one, the inner one fails with error code 7. -/
def nestedFailDecode : FileChunk → Except Nat (List FileChunk) := fun c =>
  if c.fileId = 1 then .ok [innerManifest] else .error 7

/-- The manifest chunk of the C1 failing input. -/
def soleManifest : FileChunk := ⟨1, 0, 10, [], false, true⟩

/-- The leaf child the manifest of the C1 failing input decodes to. -/
def leafChild : FileChunk := ⟨3, 0, 10, [], false, false⟩

/-- Decode oracle of the C1 failing input: every manifest decodes to the
single in-range leaf child. -/
def childDecode : FileChunk → Except Nat (List FileChunk) := fun _ => .ok [leafChild]

/-- The single-chunk batch used by the C6 witness. -/
def mergeChunkA : FileChunk := ⟨0, 5, 10, [], false, false⟩

/-- A store function used by the C6 witness, returning a fixed descriptor. -/
def saveFixed : List Nat → Except Nat FileChunk := fun _ => .ok ⟨9, 0, 0, [], false, false⟩

/-- A marshal function used by the C6 witness. -/
def marshalEmpty : List FileChunk → Except Nat (List Nat) := fun _ => .ok []

/-- A leaf chunk used by the C5 witness. -/
def wLeaf : FileChunk := ⟨4, 0, 1, [], false, false⟩

/-- A merge function that always succeeds, used by the C5 witness. -/
def mergeOk : List FileChunk → Except Nat FileChunk := fun _ => .ok wLeaf

/-- The pass-through manifest chunk of the C9 counterexample. -/
def passManifest : FileChunk := ⟨5, 0, 10, [], false, true⟩

/-- The leaf chunk of the C9 counterexample. -/
def leafA : FileChunk := ⟨6, 0, 5, [], false, false⟩

/-- A merge function that always fails with error code 5 (C9 counterexample). -/
def failMerge : List FileChunk → Except Nat FileChunk := fun _ => .error 5

/-- A transport whose attempts 0, 1 and 2 are retryable failures and whose
attempt 3 — the second location of the second round when fetching over two
replica locations — is a terminal failure (C8 witness). -/
def lateTerminalTransport : Nat → AttemptOutcome := fun k =>
  if k < 3 then ⟨[[7]], true, some k⟩ else ⟨[[1, 2]], false, some 9⟩

/-- A transport that always fails retryably, attempt `k` carrying error code
`k` (C7 witness). -/
def alwaysRetryTransport : Nat → AttemptOutcome := fun k => ⟨[], true, some k⟩

/-- The two-attempt transport of the dedup scenario: attempt 0 delivers bytes
`[0,60)` then fails retryably, attempt 1 delivers bytes `[0,100)` from
scratch and succeeds (C2 witness). -/
def dedupTransport : Nat → AttemptOutcome := fun k =>
  if k = 0 then ⟨[(List.range 100).take 60], true, some 1⟩
  else ⟨[List.range 100], true, none⟩

/-- Embeds `fetchChunkRange`: resolve the file id through the external lookup
(a lookup failure is returned immediately with count 0), then run the range
retry engine and return `(n, err)`. -/
def fetchChunkRange (lookup : Nat → Except Nat (List Unit)) (ceiling : Nat)
    (transport : Nat → AttemptOutcome) (fileId : Nat) (buffer : List Nat) :
    Nat × Option Nat :=
  match lookup fileId with
  | .error e => (0, some e)
  | .ok urlStrings =>
    ((retriedFetchChunkData ceiling transport urlStrings buffer).n,
     (retriedFetchChunkData ceiling transport urlStrings buffer).err)

/-- The state `retriedFetchChunkData` is left in right after one attempt on
transport index `k` against buffer contents `b`: `n` restarts from 0, the
attempt's deliveries are copied in, and its `(shouldRetry, err)` recorded. -/
def attemptPost (transport : Nat → AttemptOutcome) (k : Nat) (b : List Nat) :
    RangeState :=
  ⟨(rangeDeliver (transport k).deliveries b 0).1,
   (rangeDeliver (transport k).deliveries b 0).2,
   (transport k).shouldRetry, (transport k).err, k + 1⟩

/-- The state `retriedStreamFetchChunkData` is left in right after one attempt
on transport index `k` against the sink `sink` and session counter `tw`:
`localProcesed` restarts from 0, the attempt streams through the dedup
callback, and its `(shouldRetry, err)` is recorded. -/
def streamAttemptPost (transport : Nat → AttemptOutcome) (k : Nat)
    (sink : List Nat) (tw : Nat) : StreamState :=
  ⟨(streamDeliver (transport k).deliveries sink tw 0).1,
   (streamDeliver (transport k).deliveries sink tw 0).2.1,
   (transport k).shouldRetry, (transport k).err, k + 1⟩

/-! ## Helper lemmas and concrete instances -/

/-- A concrete decode oracle that yields no children (never consulted by the
claims that use it). -/
def decodeEmpty : FileChunk → Except Nat (List FileChunk) := fun _ => .ok []

/-- The boundary-test chunk of spec §8: offset 100, size 50. -/
def chunkAt100 : FileChunk := ⟨0, 100, 50, [], false, false⟩

/-- The range test that `ResolveChunkManifest` applies to each chunk, as a
Bool-valued predicate (a chunk contributes iff it passes). -/
def rangeHit (startOffset stopOffset : Int) (c : FileChunk) : Bool :=
  decide (max c.offset startOffset < min (c.offset + (c.size : Int)) stopOffset)

theorem resolveList_no_manifest
    (expand : List FileChunk → Except Nat (List FileChunk × List FileChunk))
    (decode : FileChunk → Except Nat (List FileChunk)) (s t : Int)
    (l : List FileChunk) (h : ∀ c ∈ l, c.isChunkManifest = false) :
    resolveList expand decode s t l = .ok (l.filter (rangeHit s t), []) := by
  induction l with
  | nil => simp [resolveList]
  | cons c rest ih =>
    have hc : c.isChunkManifest = false := h c (by simp)
    have hrest : ∀ x ∈ rest, x.isChunkManifest = false := fun x hx => h x (by simp [hx])
    rw [resolveList]
    by_cases hskip : max c.offset s ≥ min (c.offset + (c.size : Int)) t
    · have hmiss : rangeHit s t c = false := by
        simp only [rangeHit, decide_eq_false_iff_not]
        exact not_lt.mpr hskip
      rw [if_pos hskip, ih hrest, List.filter_cons, hmiss]
      simp
    · have hhit : rangeHit s t c = true := by
        simp only [rangeHit, decide_eq_true_eq]
        exact not_le.mp hskip
      rw [if_neg hskip, if_pos hc, ih hrest, List.filter_cons, hhit]
      simp

theorem resolveAux_no_manifest (decode : FileChunk → Except Nat (List FileChunk))
    (s t : Int) (fuel : Nat) (l : List FileChunk)
    (h : ∀ c ∈ l, c.isChunkManifest = false) :
    resolveAux decode s t fuel l = .ok (l.filter (rangeHit s t), []) := by
  cases fuel with
  | zero => exact resolveList_no_manifest _ _ _ _ _ h
  | succ f => exact resolveList_no_manifest _ _ _ _ _ h

/-- Claim C3: on a chunk list with no manifest chunks, `ResolveChunkManifest`
returns exactly the range-filtered input in input order, an empty
traversed-manifest list and no error; boundary behaviour of the range test at
chunk `{offset 100, size 50}`: range `[0,100)` excludes it, `[99,101)`
includes it, `[150,200)` excludes it. -/
theorem resolveChunkManifest_no_manifests_range_filter :
    (∀ (decode : FileChunk → Except Nat (List FileChunk)) (fuel : Nat)
       (chunks : List FileChunk) (startOffset stopOffset : Int),
       (∀ c ∈ chunks, c.isChunkManifest = false) →
       ResolveChunkManifest decode fuel chunks startOffset stopOffset =
         (chunks.filter (rangeHit startOffset stopOffset), [], none)) ∧
    (∀ decode fuel,
       ResolveChunkManifest decode fuel [chunkAt100] 0 100 = ([], [], none)) ∧
    (∀ decode fuel,
       ResolveChunkManifest decode fuel [chunkAt100] 99 101 = ([chunkAt100], [], none)) ∧
    (∀ decode fuel,
       ResolveChunkManifest decode fuel [chunkAt100] 150 200 = ([], [], none)) := by
  have main : ∀ (decode : FileChunk → Except Nat (List FileChunk)) (fuel : Nat)
      (chunks : List FileChunk) (startOffset stopOffset : Int),
      (∀ c ∈ chunks, c.isChunkManifest = false) →
      ResolveChunkManifest decode fuel chunks startOffset stopOffset =
        (chunks.filter (rangeHit startOffset stopOffset), [], none) := by
    intro decode fuel chunks s t h
    simp [ResolveChunkManifest, resolveAux_no_manifest decode s t fuel chunks h]
  refine ⟨main, ?_, ?_, ?_⟩ <;> intro decode fuel <;>
    rw [main decode fuel [chunkAt100] _ _ (by decide)] <;> decide

/-- Witness for C3 at the concrete inputs of the spec's boundary test. -/
theorem resolveChunkManifest_no_manifests_range_filter_witness :
    (∀ c ∈ [chunkAt100], c.isChunkManifest = false) ∧
    ResolveChunkManifest decodeEmpty 1 [chunkAt100] 99 101 =
      ([chunkAt100].filter (rangeHit 99 101), [], none) :=
  ⟨by decide,
   resolveChunkManifest_no_manifests_range_filter.1 decodeEmpty 1 [chunkAt100] 99 101 (by decide)⟩

/-- Claim C4: whenever the traversal produces an error, `ResolveChunkManifest`
returns the original unresolved input list, an empty traversed-manifest list
and that non-nil error; in particular a decode failure on a depth-2 nested
manifest aborts the top-level call this way. -/
theorem resolveChunkManifest_error_fallback :
    (∀ (decode : FileChunk → Except Nat (List FileChunk)) (fuel : Nat)
       (chunks : List FileChunk) (startOffset stopOffset : Int) (e : Nat),
       resolveAux decode startOffset stopOffset fuel chunks = .error e →
       ResolveChunkManifest decode fuel chunks startOffset stopOffset =
         (chunks, [], some e)) ∧
    ResolveChunkManifest nestedFailDecode 2 [outerManifest] 0 100 =
      ([outerManifest], [], some 7) := by
  constructor
  · intro decode fuel chunks s t e h
    simp [ResolveChunkManifest, h]
  · decide

/-- Witness for C4 applying the general fallback statement at the concrete
nested-failure scenario. -/
theorem resolveChunkManifest_error_fallback_witness :
    resolveAux nestedFailDecode 0 100 2 [outerManifest] = .error 7 ∧
    ResolveChunkManifest nestedFailDecode 2 [outerManifest] 0 100 =
      ([outerManifest], [], some 7) :=
  ⟨rfl,
   resolveChunkManifest_error_fallback.1 nestedFailDecode 2 [outerManifest] 0 100 7 rfl⟩

/-- Claim C1 (code bug): on the failing input — a single manifest chunk whose
decode yields one in-range leaf child — the source text as written (recursive
results assigned to `:=`-shadowed locals, see `resolveList`) loses the child:
the leaf list comes back empty, while the spec-modelled merge
(`ResolveChunkManifestMerged`) returns the child at the point of encounter.
The two disagree, so the merge of recursive results into the caller's
accumulators claimed by the spec does not happen in the code as written. -/
theorem resolveChunkManifest_shadowing_code_bug :
    ResolveChunkManifest childDecode 1 [soleManifest] 0 100 =
      ([], [soleManifest], none) ∧
    ResolveChunkManifestMerged childDecode 1 [soleManifest] 0 100 =
      ([leafChild], [soleManifest], none) ∧
    ResolveChunkManifest childDecode 1 [soleManifest] 0 100 ≠
      ResolveChunkManifestMerged childDecode 1 [soleManifest] 0 100 := by
  decide

/-! ## Manifest builder: the min/max fold of `mergeIntoManifest` -/

theorem mergeFold_split (l : List FileChunk) (p : Int × Int) :
    l.foldl (fun (p : Int × Int) c => (minOffsetStep p.1 c, maxOffsetStep p.2 c)) p =
      (l.foldl minOffsetStep p.1, l.foldl maxOffsetStep p.2) := by
  induction l generalizing p with
  | nil => rfl
  | cons c rest ih => simp [List.foldl_cons, ih]

theorem minOffsetStep_le (a : Int) (c : FileChunk) : minOffsetStep a c ≤ a := by
  simp only [minOffsetStep]
  split <;> omega

theorem minOffsetStep_le_offset (a : Int) (c : FileChunk) :
    minOffsetStep a c ≤ c.offset := by
  simp only [minOffsetStep]
  split <;> omega

theorem foldl_minOffsetStep_le (l : List FileChunk) (a : Int) :
    l.foldl minOffsetStep a ≤ a := by
  induction l generalizing a with
  | nil => simp
  | cons c rest ih =>
    calc rest.foldl minOffsetStep (minOffsetStep a c) ≤ minOffsetStep a c := ih _
    _ ≤ a := minOffsetStep_le a c

theorem foldl_minOffsetStep_le_mem (l : List FileChunk) (a : Int) (c : FileChunk)
    (h : c ∈ l) : l.foldl minOffsetStep a ≤ c.offset := by
  induction l generalizing a with
  | nil => cases h
  | cons d rest ih =>
    rcases List.mem_cons.mp h with rfl | hmem
    · calc rest.foldl minOffsetStep (minOffsetStep a c) ≤ minOffsetStep a c :=
        foldl_minOffsetStep_le rest _
      _ ≤ c.offset := minOffsetStep_le_offset a c
    · exact ih _ hmem

theorem foldl_minOffsetStep_attained (l : List FileChunk) (a : Int) :
    l.foldl minOffsetStep a = a ∨ ∃ c ∈ l, l.foldl minOffsetStep a = c.offset := by
  induction l generalizing a with
  | nil => exact Or.inl rfl
  | cons d rest ih =>
    rcases ih (minOffsetStep a d) with h | ⟨c, hc, heq⟩
    · by_cases hlt : a > d.offset
      · refine Or.inr ⟨d, by simp, ?_⟩
        rw [List.foldl_cons, h]
        simp [minOffsetStep, hlt]
      · refine Or.inl ?_
        rw [List.foldl_cons, h]
        simp [minOffsetStep, hlt]
    · exact Or.inr ⟨c, by simp [hc], by rw [List.foldl_cons, heq]⟩

theorem maxOffsetStep_ge (a : Int) (c : FileChunk) : a ≤ maxOffsetStep a c := by
  simp only [maxOffsetStep]
  split <;> omega

theorem maxOffsetStep_ge_chunkEnd (a : Int) (c : FileChunk) :
    c.offset + (c.size : Int) ≤ maxOffsetStep a c := by
  simp only [maxOffsetStep]
  split <;> omega

theorem foldl_maxOffsetStep_ge (l : List FileChunk) (a : Int) :
    a ≤ l.foldl maxOffsetStep a := by
  induction l generalizing a with
  | nil => simp
  | cons c rest ih =>
    calc a ≤ maxOffsetStep a c := maxOffsetStep_ge a c
    _ ≤ rest.foldl maxOffsetStep (maxOffsetStep a c) := ih _

theorem foldl_maxOffsetStep_ge_mem (l : List FileChunk) (a : Int) (c : FileChunk)
    (h : c ∈ l) : c.offset + (c.size : Int) ≤ l.foldl maxOffsetStep a := by
  induction l generalizing a with
  | nil => cases h
  | cons d rest ih =>
    rcases List.mem_cons.mp h with rfl | hmem
    · calc c.offset + (c.size : Int) ≤ maxOffsetStep a c := maxOffsetStep_ge_chunkEnd a c
      _ ≤ rest.foldl maxOffsetStep (maxOffsetStep a c) := foldl_maxOffsetStep_ge rest _
    · exact ih _ hmem

theorem foldl_maxOffsetStep_attained (l : List FileChunk) (a : Int) :
    l.foldl maxOffsetStep a = a ∨
      ∃ c ∈ l, l.foldl maxOffsetStep a = c.offset + (c.size : Int) := by
  induction l generalizing a with
  | nil => exact Or.inl rfl
  | cons d rest ih =>
    rcases ih (maxOffsetStep a d) with h | ⟨c, hc, heq⟩
    · by_cases hlt : a < d.offset + (d.size : Int)
      · refine Or.inr ⟨d, by simp, ?_⟩
        rw [List.foldl_cons, h]
        simp [maxOffsetStep, hlt]
      · refine Or.inl ?_
        rw [List.foldl_cons, h]
        simp [maxOffsetStep, hlt]
    · exact Or.inr ⟨c, by simp [hc], by rw [List.foldl_cons, heq]⟩

/-- Claim C6: a successful `mergeIntoManifest` stamps the returned descriptor
with `isManifest = true`, `offset` = the minimum child offset, and `size` =
(maximum child end − minimum child offset), for any serialization and store
function (hence independently of the serialized payload length); the children
are int64-representable, as they are in Go. -/
theorem mergeIntoManifest_stamps_logical_range :
    ∀ (marshal : List FileChunk → Except Nat (List Nat))
      (saveFunc : List Nat → Except Nat FileChunk)
      (ds : List FileChunk) (mc : FileChunk),
      ds ≠ [] →
      (∀ c ∈ ds, int64Min ≤ c.offset ∧ c.offset + (c.size : Int) ≤ int64Max) →
      mergeIntoManifest marshal saveFunc ds = .ok mc →
      mc.isChunkManifest = true ∧
      ((∃ c ∈ ds, mc.offset = c.offset) ∧ ∀ c ∈ ds, mc.offset ≤ c.offset) ∧
      ((∃ c ∈ ds, (mc.size : Int) = c.offset + (c.size : Int) - mc.offset) ∧
       ∀ c ∈ ds, c.offset + (c.size : Int) ≤ mc.offset + (mc.size : Int)) := by
  intro marshal saveFunc ds mc hne hbnd hmerge
  obtain ⟨c0, hc0⟩ : ∃ c, c ∈ ds := by
    cases ds with
    | nil => exact absurd rfl hne
    | cons a l => exact ⟨a, by simp⟩
  simp only [mergeIntoManifest] at hmerge
  split at hmerge
  next serErr hm => exact absurd hmerge (by simp)
  next data hm =>
    split at hmerge
    next e hs => exact absurd hmerge (by simp)
    next c hs =>
      rw [mergeFold_split] at hmerge
      set mn := ds.foldl minOffsetStep int64Max with hmn
      set mx := ds.foldl maxOffsetStep int64Min with hmx
      injection hmerge with hmerge'
      subst hmerge'
      have hminle : ∀ d ∈ ds, mn ≤ d.offset := fun d hd =>
        foldl_minOffsetStep_le_mem ds int64Max d hd
      have hmaxge : ∀ d ∈ ds, d.offset + (d.size : Int) ≤ mx := fun d hd =>
        foldl_maxOffsetStep_ge_mem ds int64Min d hd
      have hsz0 : (0 : Int) ≤ (c0.size : Int) := Int.natCast_nonneg _
      have hminatt : ∃ d ∈ ds, mn = d.offset := by
        rcases foldl_minOffsetStep_attained ds int64Max with h | h
        · refine ⟨c0, hc0, ?_⟩
          have h1 := hminle c0 hc0
          have h2 := (hbnd c0 hc0).2
          rw [← hmn] at h
          omega
        · rw [← hmn] at h
          exact h
      have hmaxatt : ∃ d ∈ ds, mx = d.offset + (d.size : Int) := by
        rcases foldl_maxOffsetStep_attained ds int64Min with h | h
        · refine ⟨c0, hc0, ?_⟩
          have h1 := hmaxge c0 hc0
          have h2 := (hbnd c0 hc0).1
          rw [← hmx] at h
          omega
        · rw [← hmx] at h
          exact h
      obtain ⟨c1, hc1, hmn1⟩ := hminatt
      obtain ⟨c2, hc2, hmx2⟩ := hmaxatt
      have hsz1 : (0 : Int) ≤ (c1.size : Int) := Int.natCast_nonneg _
      have hmnmx : mn ≤ mx := by
        have := hmaxge c1 hc1
        omega
      have hmnlo : int64Min ≤ mn := by
        have := (hbnd c1 hc1).1
        omega
      have hmxhi : mx ≤ int64Max := by
        have := (hbnd c2 hc2).2
        omega
      have hconst : int64Max - int64Min + 1 = twoPow64 := by
        norm_num [int64Max, int64Min, twoPow64]
      have hdiff : (mx - mn) % twoPow64 = mx - mn :=
        Int.emod_eq_of_lt (by omega) (by omega)
      have hszval : ((((mx - mn) % twoPow64).toNat : Int)) = mx - mn := by
        rw [hdiff]
        exact Int.toNat_of_nonneg (by omega)
      refine ⟨rfl, ⟨⟨c1, hc1, hmn1⟩, hminle⟩, ⟨c2, hc2, ?_⟩, ?_⟩
      · show ((((mx - mn) % twoPow64).toNat : Int)) = c2.offset + (c2.size : Int) - mn
        omega
      · intro d hd
        show d.offset + (d.size : Int) ≤ mn + (((mx - mn) % twoPow64).toNat : Int)
        have := hmaxge d hd
        omega

/-- Witness for C6 at a concrete one-chunk batch. -/
theorem mergeIntoManifest_stamps_logical_range_witness :
    ([mergeChunkA] ≠ ([] : List FileChunk)) ∧
    (∀ c ∈ [mergeChunkA], int64Min ≤ c.offset ∧ c.offset + (c.size : Int) ≤ int64Max) ∧
    (mergeIntoManifest marshalEmpty saveFixed [mergeChunkA] =
      .ok ⟨9, 5, 10, [], false, true⟩) ∧
    ((⟨9, 5, 10, [], false, true⟩ : FileChunk).isChunkManifest = true ∧
     ((∃ c ∈ [mergeChunkA], (⟨9, 5, 10, [], false, true⟩ : FileChunk).offset = c.offset) ∧
      ∀ c ∈ [mergeChunkA], (⟨9, 5, 10, [], false, true⟩ : FileChunk).offset ≤ c.offset) ∧
     ((∃ c ∈ [mergeChunkA], (((⟨9, 5, 10, [], false, true⟩ : FileChunk).size : Int)) =
         c.offset + (c.size : Int) - (⟨9, 5, 10, [], false, true⟩ : FileChunk).offset) ∧
      ∀ c ∈ [mergeChunkA], c.offset + (c.size : Int) ≤
        (⟨9, 5, 10, [], false, true⟩ : FileChunk).offset +
          (((⟨9, 5, 10, [], false, true⟩ : FileChunk).size : Int)))) :=
  ⟨by decide, by decide, rfl,
   mergeIntoManifest_stamps_logical_range marshalEmpty saveFixed [mergeChunkA]
     ⟨9, 5, 10, [], false, true⟩ (by decide) (by decide) rfl⟩

/-! ## Manifest builder: batching structure -/

theorem batchLoop_ok_char (mergefn : List FileChunk → Except Nat FileChunk)
    (mf : Nat) (hmf : 0 < mf) :
    ∀ (fuel : Nat) (ds ms rem : List FileChunk), ds.length ≤ fuel →
      batchLoop mergefn mf fuel ds = .ok (ms, rem) →
      ms.length = ds.length / mf ∧
      rem = ds.drop (mf * (ds.length / mf)) ∧
      ∀ j (hj : j < ms.length),
        mergefn ((ds.drop (mf * j)).take mf) = .ok (ms.get ⟨j, hj⟩) := by
  intro fuel
  induction fuel with
  | zero =>
    intro ds ms rem hlen heq
    have hds : ds = [] := List.length_eq_zero.mp (Nat.le_zero.mp hlen)
    subst hds
    simp only [batchLoop] at heq
    injection heq with heq
    obtain ⟨h1, h2⟩ := Prod.mk.injEq .. ▸ heq
    subst h1
    subst h2
    refine ⟨by simp, by simp, ?_⟩
    intro j hj
    exact absurd hj (by simp)
  | succ fuel ih =>
    intro ds ms rem hlen heq
    simp only [batchLoop] at heq
    split at heq
    · next hc =>
      split at heq
      · exact absurd heq (by simp)
      · next mc hmg =>
        split at heq
        · exact absurd heq (by simp)
        · next msrem hbl =>
          obtain ⟨ms', rem'⟩ := msrem
          injection heq with heq
          obtain ⟨h1, h2⟩ := Prod.mk.injEq .. ▸ heq
          subst h1
          subst h2
          have hlen' : (ds.drop mf).length ≤ fuel := by
            simp only [List.length_drop]
            omega
          obtain ⟨ihl, ihr, ihj⟩ := ih (ds.drop mf) ms' rem' hlen' hbl
          have hdiv : ds.length / mf = (ds.length - mf) / mf + 1 :=
            Nat.div_eq_sub_div hmf hc.2
          have hdroplen : (ds.drop mf).length = ds.length - mf := by
            simp [List.length_drop]
          refine ⟨?_, ?_, ?_⟩
          · simp only [List.length_cons, ihl, hdroplen, hdiv]
          · rw [ihr, List.drop_drop, hdroplen]
            have : mf + mf * ((ds.length - mf) / mf) = mf * (ds.length / mf) := by
              rw [hdiv]
              ring
            rw [this]
          · intro j hj
            cases j with
            | zero =>
              simpa using hmg
            | succ j =>
              have hj' : j < ms'.length := by
                simpa using hj
              have := ihj j hj'
              rw [List.drop_drop] at this
              have harith : mf + mf * j = mf * (j + 1) := by ring
              rw [harith] at this
              simpa using this
    · next hnc =>
      have hlt : ds.length < mf := by omega
      injection heq with heq
      obtain ⟨h1, h2⟩ := Prod.mk.injEq .. ▸ heq
      subst h1
      subst h2
      have hdiv : ds.length / mf = 0 := Nat.div_eq_of_lt hlt
      refine ⟨by simp [hdiv], by simp [hdiv], ?_⟩
      intro j hj
      exact absurd hj (by simp)

/-- Claim C5: a successful `doMaybeManifestize` at batch size `ManifestBatch`
(= 10000, i.e. `MaybeManifestize`) groups the leaf chunks in input order into
consecutive full batches of exactly 10000, turns each full batch into one
synthesized manifest chunk via the merge function, leaves the
smaller-than-batch remainder as individual leaf chunks, and outputs
pass-through manifests ++ synthesized manifests ++ leftover leaves; with 25000
leaf chunks this gives exactly 2 synthesized manifest chunks and 5000 leftover
leaves. -/
theorem doMaybeManifestize_batching_structure :
    ∀ (mergefn : List FileChunk → Except Nat FileChunk) (input out : List FileChunk),
      doMaybeManifestize mergefn input ManifestBatch = (out, none) →
      ∃ ms : List FileChunk,
        out = input.filter (fun c => c.isChunkManifest) ++ ms ++
              (input.filter (fun c => !c.isChunkManifest)).drop
                (ManifestBatch *
                  ((input.filter (fun c => !c.isChunkManifest)).length / ManifestBatch)) ∧
        ms.length = (input.filter (fun c => !c.isChunkManifest)).length / ManifestBatch ∧
        (∀ j (hj : j < ms.length),
           mergefn (((input.filter (fun c => !c.isChunkManifest)).drop
             (ManifestBatch * j)).take ManifestBatch) = .ok (ms.get ⟨j, hj⟩)) ∧
        ((input.filter (fun c => !c.isChunkManifest)).length = 25000 →
           ms.length = 2 ∧
           ((input.filter (fun c => !c.isChunkManifest)).drop
             (ManifestBatch *
               ((input.filter (fun c => !c.isChunkManifest)).length / ManifestBatch))).length
             = 5000) := by
  intro mergefn input out hok
  simp only [doMaybeManifestize] at hok
  split at hok
  · next e hbl =>
    injection hok with h1 h2
    exact absurd h2 (by simp)
  · next msrem hbl =>
    obtain ⟨ms, rem⟩ := msrem
    injection hok with h1 h2
    obtain ⟨hlen, hrem, hidx⟩ :=
      batchLoop_ok_char mergefn ManifestBatch (by decide) _ _ ms rem (le_refl _) hbl
    refine ⟨ms, ?_, hlen, hidx, ?_⟩
    · rw [← h1, hrem]
    · intro h25
      constructor
      · rw [hlen, h25]
        decide
      · rw [List.length_drop, h25]
        decide

/-- Witness for C5 at a concrete below-threshold input. -/
theorem doMaybeManifestize_batching_structure_witness :
    doMaybeManifestize mergeOk [wLeaf] ManifestBatch = ([wLeaf], none) ∧
    (∃ ms : List FileChunk,
      [wLeaf] = [wLeaf].filter (fun c => c.isChunkManifest) ++ ms ++
            ([wLeaf].filter (fun c => !c.isChunkManifest)).drop
              (ManifestBatch *
                (([wLeaf].filter (fun c => !c.isChunkManifest)).length / ManifestBatch)) ∧
      ms.length = ([wLeaf].filter (fun c => !c.isChunkManifest)).length / ManifestBatch ∧
      (∀ j (hj : j < ms.length),
         mergeOk ((([wLeaf].filter (fun c => !c.isChunkManifest)).drop
           (ManifestBatch * j)).take ManifestBatch) = .ok (ms.get ⟨j, hj⟩)) ∧
      (([wLeaf].filter (fun c => !c.isChunkManifest)).length = 25000 →
         ms.length = 2 ∧
         (([wLeaf].filter (fun c => !c.isChunkManifest)).drop
           (ManifestBatch *
             (([wLeaf].filter (fun c => !c.isChunkManifest)).length / ManifestBatch))).length
           = 5000)) :=
  ⟨rfl, doMaybeManifestize_batching_structure mergeOk [wLeaf] [wLeaf] rfl⟩

theorem batchLoop_error_of_batch_failure :
    ∀ (mergefn : List FileChunk → Except Nat FileChunk) (mf fuel : Nat)
      (ds : List FileChunk), 0 < mf →
      (∃ b ∈ fullBatches mf fuel ds, ∃ e, mergefn b = .error e) →
      ∃ e, batchLoop mergefn mf fuel ds = .error e := by
  intro mergefn mf fuel
  induction fuel with
  | zero =>
    intro ds _ h
    obtain ⟨b, hb, _⟩ := h
    exact absurd hb (by simp [fullBatches])
  | succ fuel ih =>
    intro ds hmf h
    obtain ⟨b, hb, e, he⟩ := h
    by_cases hcond : 0 < mf ∧ mf ≤ ds.length
    · rw [fullBatches, if_pos hcond] at hb
      rcases List.mem_cons.mp hb with rfl | hmem
      · exact ⟨e, by simp [batchLoop, hcond, he]⟩
      · cases hm : mergefn (ds.take mf) with
        | error e2 => exact ⟨e2, by simp [batchLoop, hcond, hm]⟩
        | ok mc =>
          obtain ⟨e2, he2⟩ := ih (ds.drop mf) hmf ⟨b, hmem, e, he⟩
          exact ⟨e2, by simp [batchLoop, hcond, hm, he2]⟩
    · rw [fullBatches, if_neg hcond] at hb
      exact absurd hb (by simp)

/-- Claim C9 (amended): when merging a full batch fails, `doMaybeManifestize`
aborts the whole call and returns the first merge error together with the
partitioned leaf-chunk list (`dataChunks`) as the fallback — pass-through
manifest chunks are not part of that fallback — and no partial compaction is
returned as a success; moreover a failing merge on any full batch does make
the batching loop return an error. -/
theorem doMaybeManifestize_error_fallback_amended :
    (∀ (mergefn : List FileChunk → Except Nat FileChunk)
       (input : List FileChunk) (mf e : Nat),
       batchLoop mergefn mf (input.filter (fun c => !c.isChunkManifest)).length
           (input.filter (fun c => !c.isChunkManifest)) = .error e →
       doMaybeManifestize mergefn input mf =
         (input.filter (fun c => !c.isChunkManifest), some e)) ∧
    (∀ (mergefn : List FileChunk → Except Nat FileChunk) (mf fuel : Nat)
       (ds : List FileChunk), 0 < mf →
       (∃ b ∈ fullBatches mf fuel ds, ∃ e, mergefn b = .error e) →
       ∃ e, batchLoop mergefn mf fuel ds = .error e) := by
  constructor
  · intro mergefn input mf e h
    simp [doMaybeManifestize, h]
  · exact batchLoop_error_of_batch_failure

/-- Counterexample to claim C9 as stated: on the failing compaction of
`[passManifest, leafA]` the fallback returned alongside the error is the
partitioned leaf list `[leafA]` only — it does not preserve the pass-through
manifest chunk `passManifest` from the input. -/
theorem doMaybeManifestize_fallback_drops_manifests :
    doMaybeManifestize failMerge [passManifest, leafA] 1 = ([leafA], some 5) ∧
    passManifest ∈ [passManifest, leafA] ∧
    passManifest ∉ ([leafA] : List FileChunk) :=
  ⟨rfl, by decide, by decide⟩

/-- Witness for the amended C9 statement at the counterexample input. -/
theorem doMaybeManifestize_error_fallback_amended_witness :
    batchLoop failMerge 1
        ([passManifest, leafA].filter (fun c => !c.isChunkManifest)).length
        ([passManifest, leafA].filter (fun c => !c.isChunkManifest)) = .error 5 ∧
    doMaybeManifestize failMerge [passManifest, leafA] 1 =
      ([passManifest, leafA].filter (fun c => !c.isChunkManifest), some 5) :=
  ⟨rfl,
   doMaybeManifestize_error_fallback_amended.1 failMerge [passManifest, leafA] 1 5 rfl⟩

/-! ## Retry engines: terminal short-circuit and backoff -/

theorem second_le_waitSeq : ∀ i, second ≤ waitSeq i := by
  intro i
  induction i with
  | zero => exact le_refl _
  | succ i ih =>
    rw [waitSeq]
    omega

theorem waitSeq_lt_succ (i : Nat) : waitSeq i < waitSeq (i + 1) := by
  have h2 : 2 ≤ waitSeq i := le_trans (by decide) (second_le_waitSeq i)
  have h1 : 1 ≤ waitSeq i / 2 := (Nat.one_le_div_iff (by omega)).mpr h2
  rw [waitSeq]
  omega

theorem rangeLoop_stop (ceiling : Nat) (transport : Nat → AttemptOutcome)
    (urls : List Unit) (fuel i : Nat) (s : RangeState)
    (h : ceiling ≤ waitSeq i) : rangeLoop ceiling transport urls fuel i s = s := by
  cases fuel with
  | zero => rfl
  | succ f => rw [rangeLoop, if_neg (by omega)]

theorem streamLoop_stop (ceiling : Nat) (transport : Nat → AttemptOutcome)
    (urls : List Unit) (fuel i : Nat) (s : StreamState)
    (h : ceiling ≤ waitSeq i) : streamLoop ceiling transport urls fuel i s = s := by
  cases fuel with
  | zero => rfl
  | succ f => rw [streamLoop, if_neg (by omega)]

theorem rangeRound_retry (transport : Nat → AttemptOutcome) (E : Nat → Nat)
    (hsr : ∀ k, (transport k).shouldRetry = true)
    (herr : ∀ k, (transport k).err = some (E k)) :
    ∀ (urls : List Unit) (s : RangeState),
      (rangeRound transport urls s).k = s.k + urls.length ∧
      (urls ≠ [] →
        (rangeRound transport urls s).shouldRetry = true ∧
        (rangeRound transport urls s).err =
          some (E ((rangeRound transport urls s).k - 1))) := by
  intro urls
  induction urls with
  | nil =>
    intro s
    exact ⟨by simp [rangeRound], fun h => absurd rfl h⟩
  | cons u rest ih =>
    intro s
    rw [rangeRound]
    simp only [hsr s.k, herr s.k, Option.isSome_some, if_true]
    cases rest with
    | nil =>
      refine ⟨?_, fun _ => ⟨?_, ?_⟩⟩ <;>
        simp [rangeRound, hsr s.k, herr s.k]
    | cons v rest2 =>
      obtain ⟨ihk, ihp⟩ := ih ⟨(rangeDeliver (transport s.k).deliveries s.buffer 0).1,
        (rangeDeliver (transport s.k).deliveries s.buffer 0).2,
        true, some (E s.k), s.k + 1⟩
      obtain ⟨ihr, ihe⟩ := ihp (by simp)
      refine ⟨?_, fun _ => ⟨ihr, ihe⟩⟩
      rw [ihk]
      show s.k + 1 + (v :: rest2).length = s.k + (u :: v :: rest2).length
      simp only [List.length_cons]
      omega

theorem streamRound_retry (transport : Nat → AttemptOutcome) (E : Nat → Nat)
    (hsr : ∀ k, (transport k).shouldRetry = true)
    (herr : ∀ k, (transport k).err = some (E k)) :
    ∀ (urls : List Unit) (s : StreamState),
      (streamRound transport urls s).k = s.k + urls.length ∧
      (urls ≠ [] →
        (streamRound transport urls s).shouldRetry = true ∧
        (streamRound transport urls s).err =
          some (E ((streamRound transport urls s).k - 1))) := by
  intro urls
  induction urls with
  | nil =>
    intro s
    exact ⟨by simp [streamRound], fun h => absurd rfl h⟩
  | cons u rest ih =>
    intro s
    rw [streamRound]
    simp only [hsr s.k, herr s.k, Option.isSome_some, if_true]
    cases rest with
    | nil =>
      refine ⟨?_, fun _ => ⟨?_, ?_⟩⟩ <;>
        simp [streamRound, hsr s.k, herr s.k]
    | cons v rest2 =>
      obtain ⟨ihk, ihp⟩ := ih ⟨(streamDeliver (transport s.k).deliveries s.sink s.totalWritten 0).1,
        (streamDeliver (transport s.k).deliveries s.sink s.totalWritten 0).2.1,
        true, some (E s.k), s.k + 1⟩
      obtain ⟨ihr, ihe⟩ := ihp (by simp)
      refine ⟨?_, fun _ => ⟨ihr, ihe⟩⟩
      rw [ihk]
      show s.k + 1 + (v :: rest2).length = s.k + (u :: v :: rest2).length
      simp only [List.length_cons]
      omega

theorem rangeLoop_retry (ceiling : Nat) (transport : Nat → AttemptOutcome)
    (E : Nat → Nat) (hsr : ∀ k, (transport k).shouldRetry = true)
    (herr : ∀ k, (transport k).err = some (E k))
    (urls : List Unit) (hurls : urls ≠ []) :
    ∀ (fuel i : Nat) (s : RangeState),
      ceiling ≤ waitSeq i + fuel → waitSeq i < ceiling →
      (rangeLoop ceiling transport urls fuel i s).err =
        some (E ((rangeLoop ceiling transport urls fuel i s).k - 1)) ∧
      s.k < (rangeLoop ceiling transport urls fuel i s).k := by
  intro fuel
  induction fuel with
  | zero =>
    intro i s hle hlt
    omega
  | succ fuel ih =>
    intro i s hle hlt
    obtain ⟨hk, hp⟩ := rangeRound_retry transport E hsr herr urls s
    obtain ⟨hr, he⟩ := hp hurls
    have hlen : 0 < urls.length := List.length_pos.mpr hurls
    have hcond : ((rangeRound transport urls s).err.isSome &&
        (rangeRound transport urls s).shouldRetry) = true := by
      rw [he, hr]
      simp
    simp only [rangeLoop]
    rw [if_pos hlt, if_pos hcond]
    by_cases hlt2 : waitSeq (i + 1) < ceiling
    · have hle2 : ceiling ≤ waitSeq (i + 1) + fuel := by
        have := waitSeq_lt_succ i
        omega
      obtain ⟨he2, hk2⟩ := ih (i + 1) (rangeRound transport urls s) hle2 hlt2
      refine ⟨he2, ?_⟩
      omega
    · rw [rangeLoop_stop ceiling transport urls fuel (i + 1) _ (by omega)]
      refine ⟨he, ?_⟩
      omega

theorem streamLoop_retry (ceiling : Nat) (transport : Nat → AttemptOutcome)
    (E : Nat → Nat) (hsr : ∀ k, (transport k).shouldRetry = true)
    (herr : ∀ k, (transport k).err = some (E k))
    (urls : List Unit) (hurls : urls ≠ []) :
    ∀ (fuel i : Nat) (s : StreamState),
      ceiling ≤ waitSeq i + fuel → waitSeq i < ceiling →
      (streamLoop ceiling transport urls fuel i s).err =
        some (E ((streamLoop ceiling transport urls fuel i s).k - 1)) ∧
      s.k < (streamLoop ceiling transport urls fuel i s).k := by
  intro fuel
  induction fuel with
  | zero =>
    intro i s hle hlt
    omega
  | succ fuel ih =>
    intro i s hle hlt
    obtain ⟨hk, hp⟩ := streamRound_retry transport E hsr herr urls s
    obtain ⟨hr, he⟩ := hp hurls
    have hlen : 0 < urls.length := List.length_pos.mpr hurls
    have hcond : ((streamRound transport urls s).err.isSome &&
        (streamRound transport urls s).shouldRetry) = true := by
      rw [he, hr]
      simp
    simp only [streamLoop]
    rw [if_pos hlt, if_pos hcond]
    by_cases hlt2 : waitSeq (i + 1) < ceiling
    · have hle2 : ceiling ≤ waitSeq (i + 1) + fuel := by
        have := waitSeq_lt_succ i
        omega
      obtain ⟨he2, hk2⟩ := ih (i + 1) (streamRound transport urls s) hle2 hlt2
      refine ⟨he2, ?_⟩
      omega
    · rw [streamLoop_stop ceiling transport urls fuel (i + 1) _ (by omega)]
      refine ⟨he, ?_⟩
      omega

/-- Claim C7: in both fetch modes, with a transport that always reports a
retryable failure, the engine terminates rather than looping forever: the
wait sequence starts at one time unit (`time.Second`) and grows by the factor
1.5 (`wait += wait / 2`) after each unsuccessful round, every loop gives up as
soon as the wait reaches the configured ceiling, and the engine returns the
error of the last attempt it made (`E (k − 1)` after `k ≥ 1` attempts). -/
theorem retry_engines_backoff_termination :
    ∀ (ceiling : Nat) (E : Nat → Nat) (transport : Nat → AttemptOutcome)
      (urls : List Unit) (buffer sink0 : List Nat),
      (∀ k, (transport k).shouldRetry = true) →
      (∀ k, (transport k).err = some (E k)) →
      urls ≠ [] → second < ceiling →
      (waitSeq 0 = second ∧ ∀ i, waitSeq (i + 1) = waitSeq i + waitSeq i / 2) ∧
      (∀ fuel i s, ceiling ≤ waitSeq i →
        rangeLoop ceiling transport urls fuel i s = s) ∧
      (∀ fuel i s, ceiling ≤ waitSeq i →
        streamLoop ceiling transport urls fuel i s = s) ∧
      ((retriedFetchChunkData ceiling transport urls buffer).err =
         some (E ((retriedFetchChunkData ceiling transport urls buffer).k - 1)) ∧
       0 < (retriedFetchChunkData ceiling transport urls buffer).k) ∧
      ((retriedStreamFetchChunkData ceiling transport urls sink0).err =
         some (E ((retriedStreamFetchChunkData ceiling transport urls sink0).k - 1)) ∧
       0 < (retriedStreamFetchChunkData ceiling transport urls sink0).k) := by
  intro ceiling E transport urls buffer sink0 hsr herr hurls hceil
  have hw0 : waitSeq 0 < ceiling := by simpa [waitSeq] using hceil
  refine ⟨⟨rfl, fun i => rfl⟩,
          fun fuel i s h => rangeLoop_stop ceiling transport urls fuel i s h,
          fun fuel i s h => streamLoop_stop ceiling transport urls fuel i s h, ?_, ?_⟩
  · exact rangeLoop_retry ceiling transport E hsr herr urls hurls ceiling 0
      ⟨buffer, 0, false, none, 0⟩ (Nat.le_add_left _ _) hw0
  · exact streamLoop_retry ceiling transport E hsr herr urls hurls ceiling 0
      ⟨sink0, 0, false, none, 0⟩ (Nat.le_add_left _ _) hw0

/-- Witness for C7 at a concrete always-retryable transport and ceiling. -/
theorem retry_engines_backoff_termination_witness :
    (∀ k, (alwaysRetryTransport k).shouldRetry = true) ∧
    (∀ k, (alwaysRetryTransport k).err = some k) ∧
    ([()] ≠ ([] : List Unit)) ∧ second < 2 * second ∧
    ((waitSeq 0 = second ∧ ∀ i, waitSeq (i + 1) = waitSeq i + waitSeq i / 2) ∧
     (∀ fuel i s, 2 * second ≤ waitSeq i →
       rangeLoop (2 * second) alwaysRetryTransport [()] fuel i s = s) ∧
     (∀ fuel i s, 2 * second ≤ waitSeq i →
       streamLoop (2 * second) alwaysRetryTransport [()] fuel i s = s) ∧
     ((retriedFetchChunkData (2 * second) alwaysRetryTransport [()] []).err =
        some ((retriedFetchChunkData (2 * second) alwaysRetryTransport [()] []).k - 1) ∧
      0 < (retriedFetchChunkData (2 * second) alwaysRetryTransport [()] []).k) ∧
     ((retriedStreamFetchChunkData (2 * second) alwaysRetryTransport [()] []).err =
        some ((retriedStreamFetchChunkData (2 * second) alwaysRetryTransport [()] []).k - 1) ∧
      0 < (retriedStreamFetchChunkData (2 * second) alwaysRetryTransport [()] []).k)) :=
  ⟨fun _ => rfl, fun _ => rfl, by decide, by decide,
   retry_engines_backoff_termination (2 * second) (fun k => k) alwaysRetryTransport
     [()] [] [] (fun _ => rfl) (fun _ => rfl) (by decide) (by decide)⟩

/-! ## Terminal short-circuit: any attempt with shouldRetry = false stops
the whole fetch at that attempt -/

theorem waitSeq_ge (i : Nat) : second + i ≤ waitSeq i := by
  induction i with
  | zero => simp [waitSeq]
  | succ i ih =>
    have := waitSeq_lt_succ i
    omega

theorem rangeRound_all_fail (transport : Nat → AttemptOutcome) :
    ∀ (urls : List Unit) (s : RangeState), urls ≠ [] →
      (∀ j, j < urls.length →
        (transport (s.k + j)).shouldRetry = true ∧
        (transport (s.k + j)).err.isSome = true) →
      (rangeRound transport urls s).k = s.k + urls.length ∧
      (rangeRound transport urls s).shouldRetry = true ∧
      (rangeRound transport urls s).err.isSome = true := by
  intro urls
  induction urls with
  | nil =>
    intro s h
    exact absurd rfl h
  | cons u rest ih =>
    intro s _ hall
    obtain ⟨hsr0, her0⟩ : (transport s.k).shouldRetry = true ∧
        (transport s.k).err.isSome = true := by
      simpa using hall 0 (by simp)
    simp only [rangeRound, hsr0, her0, if_true]
    cases rest with
    | nil =>
      refine ⟨?_, ?_, ?_⟩ <;> simp [rangeRound, hsr0, her0]
    | cons v rest2 =>
      have hall1 : ∀ j, j < (v :: rest2).length →
          (transport (s.k + 1 + j)).shouldRetry = true ∧
          (transport (s.k + 1 + j)).err.isSome = true := by
        intro j hj
        have hidx : s.k + 1 + j = s.k + (j + 1) := by omega
        rw [hidx]
        refine hall (j + 1) ?_
        simp only [List.length_cons] at hj ⊢
        omega
      obtain ⟨k1, r1, e1⟩ := ih ⟨(rangeDeliver (transport s.k).deliveries s.buffer 0).1,
        (rangeDeliver (transport s.k).deliveries s.buffer 0).2,
        true, (transport s.k).err, s.k + 1⟩ (by simp) hall1
      refine ⟨?_, r1, e1⟩
      rw [k1]
      show s.k + 1 + (v :: rest2).length = s.k + (u :: v :: rest2).length
      simp only [List.length_cons]
      omega

theorem streamRound_all_fail (transport : Nat → AttemptOutcome) :
    ∀ (urls : List Unit) (s : StreamState), urls ≠ [] →
      (∀ j, j < urls.length →
        (transport (s.k + j)).shouldRetry = true ∧
        (transport (s.k + j)).err.isSome = true) →
      (streamRound transport urls s).k = s.k + urls.length ∧
      (streamRound transport urls s).shouldRetry = true ∧
      (streamRound transport urls s).err.isSome = true := by
  intro urls
  induction urls with
  | nil =>
    intro s h
    exact absurd rfl h
  | cons u rest ih =>
    intro s _ hall
    obtain ⟨hsr0, her0⟩ : (transport s.k).shouldRetry = true ∧
        (transport s.k).err.isSome = true := by
      simpa using hall 0 (by simp)
    simp only [streamRound, hsr0, her0, if_true]
    cases rest with
    | nil =>
      refine ⟨?_, ?_, ?_⟩ <;> simp [streamRound, hsr0, her0]
    | cons v rest2 =>
      have hall1 : ∀ j, j < (v :: rest2).length →
          (transport (s.k + 1 + j)).shouldRetry = true ∧
          (transport (s.k + 1 + j)).err.isSome = true := by
        intro j hj
        have hidx : s.k + 1 + j = s.k + (j + 1) := by omega
        rw [hidx]
        refine hall (j + 1) ?_
        simp only [List.length_cons] at hj ⊢
        omega
      obtain ⟨k1, r1, e1⟩ := ih ⟨(streamDeliver (transport s.k).deliveries s.sink s.totalWritten 0).1,
        (streamDeliver (transport s.k).deliveries s.sink s.totalWritten 0).2.1,
        true, (transport s.k).err, s.k + 1⟩ (by simp) hall1
      refine ⟨?_, r1, e1⟩
      rw [k1]
      show s.k + 1 + (v :: rest2).length = s.k + (u :: v :: rest2).length
      simp only [List.length_cons]
      omega

theorem rangeRound_terminal (transport : Nat → AttemptOutcome) :
    ∀ (urls : List Unit) (s : RangeState) (r : Nat),
      r < urls.length →
      (∀ j, j < r → (transport (s.k + j)).shouldRetry = true ∧
        (transport (s.k + j)).err.isSome = true) →
      (transport (s.k + r)).shouldRetry = false →
      ∃ b, rangeRound transport urls s = attemptPost transport (s.k + r) b := by
  intro urls
  induction urls with
  | nil =>
    intro s r hr
    exact absurd hr (by simp)
  | cons u rest ih =>
    intro s r hr hearly hterm
    cases r with
    | zero =>
      have ht : (transport s.k).shouldRetry = false := by simpa using hterm
      refine ⟨s.buffer, ?_⟩
      simp [rangeRound, attemptPost, ht]
    | succ r2 =>
      obtain ⟨hsr0, her0⟩ : (transport s.k).shouldRetry = true ∧
          (transport s.k).err.isSome = true := by
        simpa using hearly 0 (Nat.succ_pos r2)
      simp only [rangeRound, hsr0, her0, if_true]
      have hearly2 : ∀ j, j < r2 → (transport (s.k + 1 + j)).shouldRetry = true ∧
          (transport (s.k + 1 + j)).err.isSome = true := by
        intro j hj
        have hidx : s.k + 1 + j = s.k + (j + 1) := by omega
        rw [hidx]
        exact hearly (j + 1) (by omega)
      have hterm2 : (transport (s.k + 1 + r2)).shouldRetry = false := by
        have hidx : s.k + 1 + r2 = s.k + (r2 + 1) := by omega
        rw [hidx]
        exact hterm
      obtain ⟨b, hb⟩ := ih ⟨(rangeDeliver (transport s.k).deliveries s.buffer 0).1,
        (rangeDeliver (transport s.k).deliveries s.buffer 0).2,
        true, (transport s.k).err, s.k + 1⟩ r2 (by simpa using hr) hearly2 hterm2
      refine ⟨b, ?_⟩
      rw [hb]
      show attemptPost transport (s.k + 1 + r2) b = attemptPost transport (s.k + (r2 + 1)) b
      have hidx : s.k + 1 + r2 = s.k + (r2 + 1) := by omega
      rw [hidx]

theorem streamRound_terminal (transport : Nat → AttemptOutcome) :
    ∀ (urls : List Unit) (s : StreamState) (r : Nat),
      r < urls.length →
      (∀ j, j < r → (transport (s.k + j)).shouldRetry = true ∧
        (transport (s.k + j)).err.isSome = true) →
      (transport (s.k + r)).shouldRetry = false →
      ∃ sink tw, streamRound transport urls s =
        streamAttemptPost transport (s.k + r) sink tw := by
  intro urls
  induction urls with
  | nil =>
    intro s r hr
    exact absurd hr (by simp)
  | cons u rest ih =>
    intro s r hr hearly hterm
    cases r with
    | zero =>
      have ht : (transport s.k).shouldRetry = false := by simpa using hterm
      refine ⟨s.sink, s.totalWritten, ?_⟩
      simp [streamRound, streamAttemptPost, ht]
    | succ r2 =>
      obtain ⟨hsr0, her0⟩ : (transport s.k).shouldRetry = true ∧
          (transport s.k).err.isSome = true := by
        simpa using hearly 0 (Nat.succ_pos r2)
      simp only [streamRound, hsr0, her0, if_true]
      have hearly2 : ∀ j, j < r2 → (transport (s.k + 1 + j)).shouldRetry = true ∧
          (transport (s.k + 1 + j)).err.isSome = true := by
        intro j hj
        have hidx : s.k + 1 + j = s.k + (j + 1) := by omega
        rw [hidx]
        exact hearly (j + 1) (by omega)
      have hterm2 : (transport (s.k + 1 + r2)).shouldRetry = false := by
        have hidx : s.k + 1 + r2 = s.k + (r2 + 1) := by omega
        rw [hidx]
        exact hterm
      obtain ⟨sink, tw, hb⟩ := ih ⟨(streamDeliver (transport s.k).deliveries s.sink s.totalWritten 0).1,
        (streamDeliver (transport s.k).deliveries s.sink s.totalWritten 0).2.1,
        true, (transport s.k).err, s.k + 1⟩ r2 (by simpa using hr) hearly2 hterm2
      refine ⟨sink, tw, ?_⟩
      rw [hb]
      show streamAttemptPost transport (s.k + 1 + r2) sink tw =
        streamAttemptPost transport (s.k + (r2 + 1)) sink tw
      have hidx : s.k + 1 + r2 = s.k + (r2 + 1) := by omega
      rw [hidx]

theorem rangeLoop_terminal (ceiling : Nat) (transport : Nat → AttemptOutcome)
    (urls : List Unit) (hurls : urls ≠ []) :
    ∀ (q fuel i : Nat) (s : RangeState) (r : Nat),
      r < urls.length →
      (∀ j, j < urls.length * q + r →
        (transport (s.k + j)).shouldRetry = true ∧
        (transport (s.k + j)).err.isSome = true) →
      (transport (s.k + (urls.length * q + r))).shouldRetry = false →
      (∀ t, t ≤ q → waitSeq (i + t) < ceiling) →
      q + 1 ≤ fuel →
      ∃ b, rangeLoop ceiling transport urls fuel i s =
        attemptPost transport (s.k + (urls.length * q + r)) b := by
  intro q
  induction q with
  | zero =>
    intro fuel i s r hr hearly hterm hwait hfuel
    obtain ⟨f, rfl⟩ : ∃ f, fuel = f + 1 := ⟨fuel - 1, by omega⟩
    have hw : waitSeq i < ceiling := by simpa using hwait 0 (le_refl 0)
    simp only [rangeLoop]
    rw [if_pos hw]
    simp only [Nat.mul_zero, Nat.zero_add] at hearly hterm ⊢
    obtain ⟨b, hb⟩ := rangeRound_terminal transport urls s r hr hearly hterm
    rw [hb]
    have hcond : ¬(((attemptPost transport (s.k + r) b).err.isSome &&
        (attemptPost transport (s.k + r) b).shouldRetry) = true) := by
      show ¬(((transport (s.k + r)).err.isSome && (transport (s.k + r)).shouldRetry) = true)
      rw [hterm, Bool.and_false]
      simp
    rw [if_neg hcond]
    exact ⟨b, rfl⟩
  | succ q ih =>
    intro fuel i s r hr hearly hterm hwait hfuel
    obtain ⟨f, rfl⟩ : ∃ f, fuel = f + 1 := ⟨fuel - 1, by omega⟩
    have hw : waitSeq i < ceiling := by simpa using hwait 0 (Nat.zero_le _)
    simp only [rangeLoop]
    rw [if_pos hw]
    have hexp : urls.length * (q + 1) = urls.length * q + urls.length := by ring
    have hfull : ∀ j, j < urls.length →
        (transport (s.k + j)).shouldRetry = true ∧
        (transport (s.k + j)).err.isSome = true := by
      intro j hj
      exact hearly j (by omega)
    obtain ⟨hk1, hr1, he1⟩ := rangeRound_all_fail transport urls s hurls hfull
    have hcond : ((rangeRound transport urls s).err.isSome &&
        (rangeRound transport urls s).shouldRetry) = true := by
      rw [he1, hr1]
      rfl
    rw [if_pos hcond]
    have hearly2 : ∀ j, j < urls.length * q + r →
        (transport ((rangeRound transport urls s).k + j)).shouldRetry = true ∧
        (transport ((rangeRound transport urls s).k + j)).err.isSome = true := by
      intro j hj
      have hidx : (rangeRound transport urls s).k + j = s.k + (urls.length + j) := by
        rw [hk1]
        omega
      rw [hidx]
      exact hearly (urls.length + j) (by omega)
    have hterm2 : (transport ((rangeRound transport urls s).k +
        (urls.length * q + r))).shouldRetry = false := by
      have hidx : (rangeRound transport urls s).k + (urls.length * q + r) =
          s.k + (urls.length * (q + 1) + r) := by
        rw [hk1, hexp]
        omega
      rw [hidx]
      exact hterm
    have hwait2 : ∀ t, t ≤ q → waitSeq (i + 1 + t) < ceiling := by
      intro t ht
      have hidx : i + 1 + t = i + (t + 1) := by omega
      rw [hidx]
      exact hwait (t + 1) (by omega)
    obtain ⟨b, hb⟩ := ih f (i + 1) (rangeRound transport urls s) r hr hearly2 hterm2
      hwait2 (by omega)
    refine ⟨b, ?_⟩
    rw [hb]
    have hidx : (rangeRound transport urls s).k + (urls.length * q + r) =
        s.k + (urls.length * (q + 1) + r) := by
      rw [hk1, hexp]
      omega
    rw [hidx]

theorem streamLoop_terminal (ceiling : Nat) (transport : Nat → AttemptOutcome)
    (urls : List Unit) (hurls : urls ≠ []) :
    ∀ (q fuel i : Nat) (s : StreamState) (r : Nat),
      r < urls.length →
      (∀ j, j < urls.length * q + r →
        (transport (s.k + j)).shouldRetry = true ∧
        (transport (s.k + j)).err.isSome = true) →
      (transport (s.k + (urls.length * q + r))).shouldRetry = false →
      (∀ t, t ≤ q → waitSeq (i + t) < ceiling) →
      q + 1 ≤ fuel →
      ∃ sink tw, streamLoop ceiling transport urls fuel i s =
        streamAttemptPost transport (s.k + (urls.length * q + r)) sink tw := by
  intro q
  induction q with
  | zero =>
    intro fuel i s r hr hearly hterm hwait hfuel
    obtain ⟨f, rfl⟩ : ∃ f, fuel = f + 1 := ⟨fuel - 1, by omega⟩
    have hw : waitSeq i < ceiling := by simpa using hwait 0 (le_refl 0)
    simp only [streamLoop]
    rw [if_pos hw]
    simp only [Nat.mul_zero, Nat.zero_add] at hearly hterm ⊢
    obtain ⟨sink, tw, hb⟩ := streamRound_terminal transport urls s r hr hearly hterm
    rw [hb]
    have hcond : ¬(((streamAttemptPost transport (s.k + r) sink tw).err.isSome &&
        (streamAttemptPost transport (s.k + r) sink tw).shouldRetry) = true) := by
      show ¬(((transport (s.k + r)).err.isSome && (transport (s.k + r)).shouldRetry) = true)
      rw [hterm, Bool.and_false]
      simp
    rw [if_neg hcond]
    exact ⟨sink, tw, rfl⟩
  | succ q ih =>
    intro fuel i s r hr hearly hterm hwait hfuel
    obtain ⟨f, rfl⟩ : ∃ f, fuel = f + 1 := ⟨fuel - 1, by omega⟩
    have hw : waitSeq i < ceiling := by simpa using hwait 0 (Nat.zero_le _)
    simp only [streamLoop]
    rw [if_pos hw]
    have hexp : urls.length * (q + 1) = urls.length * q + urls.length := by ring
    have hfull : ∀ j, j < urls.length →
        (transport (s.k + j)).shouldRetry = true ∧
        (transport (s.k + j)).err.isSome = true := by
      intro j hj
      exact hearly j (by omega)
    obtain ⟨hk1, hr1, he1⟩ := streamRound_all_fail transport urls s hurls hfull
    have hcond : ((streamRound transport urls s).err.isSome &&
        (streamRound transport urls s).shouldRetry) = true := by
      rw [he1, hr1]
      rfl
    rw [if_pos hcond]
    have hearly2 : ∀ j, j < urls.length * q + r →
        (transport ((streamRound transport urls s).k + j)).shouldRetry = true ∧
        (transport ((streamRound transport urls s).k + j)).err.isSome = true := by
      intro j hj
      have hidx : (streamRound transport urls s).k + j = s.k + (urls.length + j) := by
        rw [hk1]
        omega
      rw [hidx]
      exact hearly (urls.length + j) (by omega)
    have hterm2 : (transport ((streamRound transport urls s).k +
        (urls.length * q + r))).shouldRetry = false := by
      have hidx : (streamRound transport urls s).k + (urls.length * q + r) =
          s.k + (urls.length * (q + 1) + r) := by
        rw [hk1, hexp]
        omega
      rw [hidx]
      exact hterm
    have hwait2 : ∀ t, t ≤ q → waitSeq (i + 1 + t) < ceiling := by
      intro t ht
      have hidx : i + 1 + t = i + (t + 1) := by omega
      rw [hidx]
      exact hwait (t + 1) (by omega)
    obtain ⟨sink, tw, hb⟩ := ih f (i + 1) (streamRound transport urls s) r hr hearly2
      hterm2 hwait2 (by omega)
    refine ⟨sink, tw, ?_⟩
    rw [hb]
    have hidx : (streamRound transport urls s).k + (urls.length * q + r) =
        s.k + (urls.length * (q + 1) + r) := by
      rw [hk1, hexp]
      omega
    rw [hidx]

/-- Claim C8: in both fetch modes, any attempt whose transport outcome has
`shouldRetry = false` is terminal.  If the engine reaches attempt `m` (all
earlier attempts were retryable failures, and the wait stayed below the
ceiling for each round up to the one containing attempt `m`) and attempt `m`
reports `shouldRetry = false`, the engine stops at exactly that attempt —
`k = m + 1` attempts in total, so neither the remaining locations of that
round nor any later round are tried — and surfaces that attempt's error and
state; with `m = 0` this is the first-location case. -/
theorem retry_engines_terminal_short_circuit :
    ∀ (ceiling : Nat) (transport : Nat → AttemptOutcome) (urls : List Unit)
      (b0 sink0 : List Nat) (m : Nat),
      urls ≠ [] →
      (∀ k, k < m → (transport k).shouldRetry = true ∧
        (transport k).err.isSome = true) →
      (transport m).shouldRetry = false →
      (∀ i, i ≤ m / urls.length → waitSeq i < ceiling) →
      ((∃ b, retriedFetchChunkData ceiling transport urls b0 =
          attemptPost transport m b) ∧
       (retriedFetchChunkData ceiling transport urls b0).k = m + 1 ∧
       (retriedFetchChunkData ceiling transport urls b0).err = (transport m).err ∧
       (retriedFetchChunkData ceiling transport urls b0).shouldRetry = false) ∧
      ((∃ sink tw, retriedStreamFetchChunkData ceiling transport urls sink0 =
          streamAttemptPost transport m sink tw) ∧
       (retriedStreamFetchChunkData ceiling transport urls sink0).k = m + 1 ∧
       (retriedStreamFetchChunkData ceiling transport urls sink0).err = (transport m).err ∧
       (retriedStreamFetchChunkData ceiling transport urls sink0).shouldRetry = false) := by
  intro ceiling transport urls b0 sink0 m hurls hearly hterm hwait
  have hL : 0 < urls.length := List.length_pos.mpr hurls
  have hr : m % urls.length < urls.length := Nat.mod_lt _ hL
  have hm : urls.length * (m / urls.length) + m % urls.length = m :=
    Nat.div_add_mod m urls.length
  have hfuel : m / urls.length + 1 ≤ ceiling := by
    have h1 := hwait (m / urls.length) (le_refl _)
    have h2 := waitSeq_ge (m / urls.length)
    have h3 : 0 < second := by decide
    omega
  constructor
  · obtain ⟨b, hb⟩ := rangeLoop_terminal ceiling transport urls hurls
      (m / urls.length) ceiling 0 ⟨b0, 0, false, none, 0⟩ (m % urls.length) hr
      (by intro j hj; simpa using hearly j (by omega))
      (by
        have hidx : (⟨b0, 0, false, none, 0⟩ : RangeState).k +
            (urls.length * (m / urls.length) + m % urls.length) = m := by
          show 0 + (urls.length * (m / urls.length) + m % urls.length) = m
          omega
        rw [hidx]
        exact hterm)
      (by intro t ht; simpa using hwait t ht) hfuel
    have hidx : (⟨b0, 0, false, none, 0⟩ : RangeState).k +
        (urls.length * (m / urls.length) + m % urls.length) = m := by
      show 0 + (urls.length * (m / urls.length) + m % urls.length) = m
      omega
    rw [hidx] at hb
    have hb2 : retriedFetchChunkData ceiling transport urls b0 =
        attemptPost transport m b := hb
    refine ⟨⟨b, hb2⟩, ?_, ?_, ?_⟩
    · rw [hb2]
      rfl
    · rw [hb2]
      rfl
    · rw [hb2]
      exact hterm
  · obtain ⟨sink, tw, hb⟩ := streamLoop_terminal ceiling transport urls hurls
      (m / urls.length) ceiling 0 ⟨sink0, 0, false, none, 0⟩ (m % urls.length) hr
      (by intro j hj; simpa using hearly j (by omega))
      (by
        have hidx : (⟨sink0, 0, false, none, 0⟩ : StreamState).k +
            (urls.length * (m / urls.length) + m % urls.length) = m := by
          show 0 + (urls.length * (m / urls.length) + m % urls.length) = m
          omega
        rw [hidx]
        exact hterm)
      (by intro t ht; simpa using hwait t ht) hfuel
    have hidx : (⟨sink0, 0, false, none, 0⟩ : StreamState).k +
        (urls.length * (m / urls.length) + m % urls.length) = m := by
      show 0 + (urls.length * (m / urls.length) + m % urls.length) = m
      omega
    rw [hidx] at hb
    have hb2 : retriedStreamFetchChunkData ceiling transport urls sink0 =
        streamAttemptPost transport m sink tw := hb
    refine ⟨⟨sink, tw, hb2⟩, ?_, ?_, ?_⟩
    · rw [hb2]
      rfl
    · rw [hb2]
      rfl
    · rw [hb2]
      exact hterm

/-- Witness for C8 at a terminal attempt that is not the first: over two
replica locations, attempts 0-2 fail retryably and attempt 3 (second location
of the second round) is terminal. -/
theorem retry_engines_terminal_short_circuit_witness :
    (([(), ()] : List Unit) ≠ []) ∧
    (∀ k, k < 3 → (lateTerminalTransport k).shouldRetry = true ∧
      (lateTerminalTransport k).err.isSome = true) ∧
    (lateTerminalTransport 3).shouldRetry = false ∧
    (∀ i, i ≤ 3 / ([(), ()] : List Unit).length → waitSeq i < 2 * second) ∧
    (((∃ b, retriedFetchChunkData (2 * second) lateTerminalTransport [(), ()] [0, 0, 0] =
        attemptPost lateTerminalTransport 3 b) ∧
      (retriedFetchChunkData (2 * second) lateTerminalTransport [(), ()] [0, 0, 0]).k = 3 + 1 ∧
      (retriedFetchChunkData (2 * second) lateTerminalTransport [(), ()] [0, 0, 0]).err =
        (lateTerminalTransport 3).err ∧
      (retriedFetchChunkData (2 * second) lateTerminalTransport [(), ()] [0, 0, 0]).shouldRetry = false) ∧
     ((∃ sink tw, retriedStreamFetchChunkData (2 * second) lateTerminalTransport [(), ()] [] =
        streamAttemptPost lateTerminalTransport 3 sink tw) ∧
      (retriedStreamFetchChunkData (2 * second) lateTerminalTransport [(), ()] []).k = 3 + 1 ∧
      (retriedStreamFetchChunkData (2 * second) lateTerminalTransport [(), ()] []).err =
        (lateTerminalTransport 3).err ∧
      (retriedStreamFetchChunkData (2 * second) lateTerminalTransport [(), ()] []).shouldRetry = false)) :=
  ⟨by decide, by decide, by decide, by decide,
   retry_engines_terminal_short_circuit (2 * second) lateTerminalTransport [(), ()]
     [0, 0, 0] [] 3 (by decide) (by decide) (by decide) (by decide)⟩

/-! ## Stream dedup: re-delivered bytes are written exactly once -/

theorem streamWrite_dedup (c d : List Nat) (tw0 lp : Nat)
    (_h1 : lp + d.length ≤ c.length)
    (hd : (c.drop lp).take d.length = d) :
    streamWrite (c.take (max tw0 lp)) (max tw0 lp) lp d =
      (c.take (max tw0 (lp + d.length)), max tw0 (lp + d.length), lp + d.length) := by
  by_cases hlp : lp < tw0
  · have hM : max tw0 lp = tw0 := Nat.max_eq_left (le_of_lt hlp)
    rw [hM]
    simp only [streamWrite]
    rw [if_pos hlp]
    by_cases hdl : d.length ≤ tw0 - lp
    · rw [if_pos hdl]
      have hM2 : max tw0 (lp + d.length) = tw0 := Nat.max_eq_left (by omega)
      rw [hM2]
    · rw [if_neg hdl]
      have hM2 : max tw0 (lp + d.length) = lp + d.length := Nat.max_eq_right (by omega)
      rw [hM2]
      have key : d.drop (tw0 - lp) = (c.drop tw0).take (d.length - (tw0 - lp)) := by
        conv_lhs => rw [← hd]
        rw [List.drop_take, List.drop_drop]
        have harith : lp + (tw0 - lp) = tw0 := by omega
        rw [harith]
      simp only [Prod.mk.injEq]
      refine ⟨?_, ?_, ?_⟩
      · rw [key, ← List.take_add]
        have harith : tw0 + (d.length - (tw0 - lp)) = lp + d.length := by omega
        rw [harith]
      · simp only [List.length_drop]
        omega
      · simp only [List.length_drop]
        omega
  · have hM : max tw0 lp = lp := Nat.max_eq_right (by omega)
    rw [hM]
    simp only [streamWrite]
    rw [if_neg (by omega)]
    have hM2 : max tw0 (lp + d.length) = lp + d.length := Nat.max_eq_right (by omega)
    rw [hM2]
    have hsink : c.take lp ++ d = c.take (lp + d.length) := by
      conv_lhs => rw [← hd]
      rw [← List.take_add]
    rw [hsink]

theorem streamDeliver_dedup :
    ∀ (ds : List (List Nat)) (c : List Nat) (tw0 lp : Nat),
      lp + ds.flatten.length ≤ c.length →
      (c.drop lp).take ds.flatten.length = ds.flatten →
      streamDeliver ds (c.take (max tw0 lp)) (max tw0 lp) lp =
        (c.take (max tw0 (lp + ds.flatten.length)),
         max tw0 (lp + ds.flatten.length), lp + ds.flatten.length) := by
  intro ds
  induction ds with
  | nil =>
    intro c tw0 lp h1 h2
    simp [streamDeliver]
  | cons d ds ih =>
    intro c tw0 lp h1 h2
    have hflat : (d :: ds).flatten = d ++ ds.flatten := rfl
    rw [hflat] at h1 h2 ⊢
    rw [List.length_append] at h1 h2 ⊢
    have hn : d.length ≤ (c.drop lp).length := by
      simp only [List.length_drop]
      omega
    rw [List.take_add] at h2
    obtain ⟨hd, hds⟩ := List.append_inj h2 (List.length_take_of_le hn)
    rw [List.drop_drop] at hds
    have h1' : lp + d.length + ds.flatten.length ≤ c.length := by omega
    have hwrite := streamWrite_dedup c d tw0 lp (by omega) hd
    simp only [streamDeliver]
    rw [hwrite]
    show streamDeliver ds (c.take (max tw0 (lp + d.length))) (max tw0 (lp + d.length))
        (lp + d.length) =
      (c.take (max tw0 (lp + (d.length + ds.flatten.length))),
       max tw0 (lp + (d.length + ds.flatten.length)), lp + (d.length + ds.flatten.length))
    have harith : lp + d.length + ds.flatten.length = lp + (d.length + ds.flatten.length) := by
      omega
    rw [← harith]
    exact ih c tw0 (lp + d.length) h1' hds

/-- Claim C2: in a whole-chunk streaming session, a first attempt that
delivers a prefix of the chunk (`ds0`, flattening to `c.take a`) and then
fails retryably, followed by a second attempt that re-delivers the whole chunk
from byte zero (`ds1`, flattening to `c`, in any callback chunking), leaves
the sink containing exactly the chunk `c` once — the already-committed prefix
of each delivery is discarded and only the remainder is written and counted
into both counters. -/
theorem retriedStreamFetchChunkData_dedup_exactly_once :
    ∀ (c : List Nat) (a : Nat) (ds0 ds1 : List (List Nat)) (e : Nat) (sr : Bool)
      (ceiling : Nat) (transport : Nat → AttemptOutcome),
      a ≤ c.length →
      ds0.flatten = c.take a →
      ds1.flatten = c →
      waitSeq 1 < ceiling →
      transport 0 = ⟨ds0, true, some e⟩ →
      transport 1 = ⟨ds1, sr, none⟩ →
      retriedStreamFetchChunkData ceiling transport [()] [] =
        ⟨c, c.length, sr, none, 2⟩ := by
  intro c a ds0 ds1 e sr ceiling transport ha h0 h1 hceil hT0 hT1
  have hw0 : waitSeq 0 < ceiling := lt_trans (waitSeq_lt_succ 0) hceil
  have hsec : second ≤ waitSeq 1 := second_le_waitSeq 1
  have h2s : 2 ≤ second := by decide
  obtain ⟨cf, rfl⟩ : ∃ cf, ceiling = cf + 2 := ⟨ceiling - 2, by omega⟩
  have hlen0 : ds0.flatten.length = a := by
    rw [h0]
    exact List.length_take_of_le ha
  have hdel0 : streamDeliver ds0 [] 0 0 = (c.take a, a, a) := by
    have hcond : (c.drop 0).take ds0.flatten.length = ds0.flatten := by
      rw [hlen0, h0]
      simp
    have hkey := streamDeliver_dedup ds0 c 0 0 (by omega) hcond
    simpa [hlen0] using hkey
  have hlen1 : ds1.flatten.length = c.length := by rw [h1]
  have hdel1 : streamDeliver ds1 (c.take a) a 0 = (c, c.length, c.length) := by
    have hcond : (c.drop 0).take ds1.flatten.length = ds1.flatten := by
      rw [hlen1, h1]
      simp
    have hkey := streamDeliver_dedup ds1 c a 0 (by omega) hcond
    simpa [hlen1, Nat.max_eq_right ha] using hkey
  cases sr with
  | true =>
    simp [retriedStreamFetchChunkData, streamLoop, streamRound, hT0, hT1,
      hdel0, hdel1, hw0, hceil]
  | false =>
    simp [retriedStreamFetchChunkData, streamLoop, streamRound, hT0, hT1,
      hdel0, hdel1, hw0, hceil]

/-- Witness for C2 at the spec's concrete 60/100 scenario. -/
theorem retriedStreamFetchChunkData_dedup_exactly_once_witness :
    60 ≤ (List.range 100).length ∧
    ([(List.range 100).take 60] : List (List Nat)).flatten = (List.range 100).take 60 ∧
    ([List.range 100] : List (List Nat)).flatten = List.range 100 ∧
    waitSeq 1 < 2 * second ∧
    dedupTransport 0 = ⟨[(List.range 100).take 60], true, some 1⟩ ∧
    dedupTransport 1 = ⟨[List.range 100], true, none⟩ ∧
    retriedStreamFetchChunkData (2 * second) dedupTransport [()] [] =
      ⟨List.range 100, (List.range 100).length, true, none, 2⟩ :=
  ⟨by simp, by simp, by simp, by decide, rfl, rfl,
   retriedStreamFetchChunkData_dedup_exactly_once (List.range 100) 60
     [(List.range 100).take 60] [List.range 100] 1 true (2 * second) dedupTransport
     (by simp) (by simp) (by simp) (by decide) rfl rfl⟩

/-! ## Range fetch: buffer safety -/

theorem rangeWrite_shape (b d : List Nat) (n : Nat) (hn : n ≤ b.length) :
    rangeWrite b n d =
      (b.take n ++ d.take (min b.length (n + d.length) - n) ++
         b.drop (min b.length (n + d.length)),
       min b.length (n + d.length)) := by
  simp only [rangeWrite]
  by_cases h : n < b.length
  · rw [if_pos h]
    have h1 : min b.length (n + d.length) = n + min (b.length - n) d.length := by omega
    rw [h1]
    simp only [Prod.mk.injEq]
    refine ⟨?_, trivial⟩
    have h2 : n + min (b.length - n) d.length - n = min (b.length - n) d.length := by omega
    rw [h2]
  · rw [if_neg h]
    have hm : min b.length (n + d.length) = n := by omega
    rw [hm]
    simp only [Nat.sub_self, List.take_zero, List.nil_append, Prod.mk.injEq]
    refine ⟨?_, trivial⟩
    simp

theorem rangeDeliver_shape :
    ∀ (ds : List (List Nat)) (b : List Nat) (n : Nat), n ≤ b.length →
      rangeDeliver ds b n =
        (b.take n ++ ds.flatten.take (min b.length (n + ds.flatten.length) - n) ++
           b.drop (min b.length (n + ds.flatten.length)),
         min b.length (n + ds.flatten.length)) := by
  intro ds
  induction ds with
  | nil =>
    intro b n hn
    have hm : min b.length (n + 0) = n := by omega
    simp only [rangeDeliver, List.flatten_nil, List.length_nil, hm, Nat.sub_self,
      List.take_zero, List.nil_append]
    simp
  | cons d ds ih =>
    intro b n hn
    have hflat : (d :: ds).flatten = d ++ ds.flatten := rfl
    rw [hflat, List.length_append]
    set M := min b.length (n + d.length) with hM
    set N := min b.length (n + (d.length + ds.flatten.length)) with hN
    have hMle : M ≤ b.length := by omega
    have hMn : n ≤ M := by omega
    have hNM : M ≤ N := by omega
    have hNle : N ≤ b.length := by omega
    have hMdl : M - n ≤ d.length := by omega
    -- one write
    have hw := rangeWrite_shape b d n hn
    show rangeDeliver ds (rangeWrite b n d).1 (rangeWrite b n d).2 = _
    rw [hw]
    -- lengths of the written buffer
    have hlen_take : (b.take n).length = n := List.length_take_of_le hn
    have hlen_mid : (d.take (M - n)).length = M - n := List.length_take_of_le hMdl
    have hlen_b1 : (b.take n ++ d.take (M - n) ++ b.drop M).length = b.length := by
      simp only [List.length_append, List.length_drop, hlen_take, hlen_mid]
      omega
    have hprefix_len : (b.take n ++ d.take (M - n)).length = M := by
      simp only [List.length_append, hlen_take, hlen_mid]
      omega
    have hML : M ≤ (b.take n ++ d.take (M - n) ++ b.drop M).length := by
      rw [hlen_b1]
      omega
    have hih := ih (b.take n ++ d.take (M - n) ++ b.drop M) M hML
    rw [hih]
    -- the recursive min over the written buffer
    have hN2 : min (b.take n ++ d.take (M - n) ++ b.drop M).length
        (M + ds.flatten.length) = N := by
      rw [hlen_b1]
      omega
    rw [hN2]
    -- prefix of length M of the written buffer
    have hassoc : b.take n ++ d.take (M - n) ++ b.drop M =
        (b.take n ++ d.take (M - n)) ++ b.drop M := by
      rw [List.append_assoc]
    have htakeM : (b.take n ++ d.take (M - n) ++ b.drop M).take M =
        b.take n ++ d.take (M - n) := by
      rw [hassoc]
      exact List.take_left' hprefix_len
    have hdropM : (b.take n ++ d.take (M - n) ++ b.drop M).drop M = b.drop M := by
      rw [hassoc]
      exact List.drop_left' hprefix_len
    have hdropN : (b.take n ++ d.take (M - n) ++ b.drop M).drop N = b.drop N := by
      have h1 : N = M + (N - M) := by omega
      rw [h1, ← List.drop_drop, hdropM, List.drop_drop, ← h1]
    rw [htakeM, hdropN]
    -- split the flattened take across d and the rest
    have hsplit : (d ++ ds.flatten).take (N - n) =
        d.take (M - n) ++ ds.flatten.take (N - M) := by
      by_cases hcase : n + d.length ≤ b.length
      · have hMeq : M - n = d.length := by omega
        have h1 : N - n = d.length + (N - M) := by omega
        rw [h1, hMeq, List.take_add, List.take_left, List.drop_left, List.take_length]
      · have hMeq : M = b.length := by omega
        have hNeq : N = b.length := by omega
        have h0 : N - M = 0 := by omega
        rw [h0, List.take_zero, List.append_nil]
        have hle : N - n ≤ d.length := by omega
        have hMN : M - n = N - n := by omega
        rw [hMN]
        exact List.take_append_of_le_length hle
    rw [hsplit]
    simp [List.append_assoc]

theorem rangeDeliver_n_le (ds : List (List Nat)) (b : List Nat) (n : Nat)
    (hn : n ≤ b.length) : (rangeDeliver ds b n).2 ≤ b.length := by
  rw [rangeDeliver_shape ds b n hn]
  show min b.length (n + ds.flatten.length) ≤ b.length
  omega

theorem rangeDeliver_length (ds : List (List Nat)) (b : List Nat) (n : Nat)
    (hn : n ≤ b.length) : (rangeDeliver ds b n).1.length = b.length := by
  rw [rangeDeliver_shape ds b n hn]
  show (b.take n ++ ds.flatten.take _ ++ b.drop _).length = b.length
  simp only [List.length_append, List.length_take, List.length_drop]
  omega

theorem rangeRound_last (transport : Nat → AttemptOutcome) (L : Nat) :
    ∀ (urls : List Unit) (s : RangeState), s.buffer.length = L →
      rangeRound transport urls s = s ∨
      ∃ k b, b.length = L ∧ rangeRound transport urls s = attemptPost transport k b := by
  intro urls
  induction urls with
  | nil =>
    intro s hs
    exact Or.inl rfl
  | cons u rest ih =>
    intro s hs
    simp only [rangeRound]
    cases hsr : (transport s.k).shouldRetry with
    | false =>
      refine Or.inr ⟨s.k, s.buffer, hs, ?_⟩
      simp [attemptPost, hsr]
    | true =>
      cases herr : (transport s.k).err with
      | none =>
        refine Or.inr ⟨s.k, s.buffer, hs, ?_⟩
        simp [attemptPost, hsr, herr]
      | some e =>
        simp only [hsr, herr, Option.isSome_some, if_true]
        have hlen1 : (rangeDeliver (transport s.k).deliveries s.buffer 0).1.length = L := by
          rw [rangeDeliver_length _ _ _ (Nat.zero_le _)]
          exact hs
        rcases ih ⟨(rangeDeliver (transport s.k).deliveries s.buffer 0).1,
            (rangeDeliver (transport s.k).deliveries s.buffer 0).2,
            true, some e, s.k + 1⟩ hlen1 with h | ⟨k, b, hb, h⟩
        · refine Or.inr ⟨s.k, s.buffer, hs, ?_⟩
          rw [h]
          simp [attemptPost, hsr, herr]
        · exact Or.inr ⟨k, b, hb, h⟩

theorem rangeLoop_last (ceiling : Nat) (transport : Nat → AttemptOutcome)
    (urls : List Unit) (L : Nat) :
    ∀ (fuel i : Nat) (s : RangeState), s.buffer.length = L →
      rangeLoop ceiling transport urls fuel i s = s ∨
      ∃ k b, b.length = L ∧
        rangeLoop ceiling transport urls fuel i s = attemptPost transport k b := by
  intro fuel
  induction fuel with
  | zero =>
    intro i s hs
    exact Or.inl rfl
  | succ fuel ih =>
    intro i s hs
    by_cases hw : waitSeq i < ceiling
    · simp only [rangeLoop]
      rw [if_pos hw]
      rcases rangeRound_last transport L urls s hs with hr | ⟨k, b, hb, hr⟩
      · rw [hr]
        by_cases hc : (s.err.isSome && s.shouldRetry) = true
        · rw [if_pos hc]
          exact ih (i + 1) s hs
        · rw [if_neg hc]
          exact Or.inl rfl
      · rw [hr]
        have hblen : (attemptPost transport k b).buffer.length = L := by
          show (rangeDeliver (transport k).deliveries b 0).1.length = L
          rw [rangeDeliver_length _ _ _ (Nat.zero_le _)]
          exact hb
        by_cases hc : ((attemptPost transport k b).err.isSome &&
            (attemptPost transport k b).shouldRetry) = true
        · rw [if_pos hc]
          rcases ih (i + 1) _ hblen with h2 | ⟨k2, b2, hb2, h2⟩
          · exact Or.inr ⟨k, b, hb, h2⟩
          · exact Or.inr ⟨k2, b2, hb2, h2⟩
        · rw [if_neg hc]
          exact Or.inr ⟨k, b, hb, rfl⟩
    · simp only [rangeLoop]
      rw [if_neg hw]
      exact Or.inl rfl

theorem retriedFetch_nbound (ceiling : Nat) (transport : Nat → AttemptOutcome)
    (urls : List Unit) (b0 : List Nat) :
    (retriedFetchChunkData ceiling transport urls b0).n ≤ b0.length ∧
    (retriedFetchChunkData ceiling transport urls b0).buffer.length = b0.length := by
  rcases rangeLoop_last ceiling transport urls b0.length ceiling 0
      ⟨b0, 0, false, none, 0⟩ rfl with h | ⟨k, b, hb, h⟩
  · show (rangeLoop ceiling transport urls ceiling 0 ⟨b0, 0, false, none, 0⟩).n ≤ b0.length ∧
      (rangeLoop ceiling transport urls ceiling 0 ⟨b0, 0, false, none, 0⟩).buffer.length = b0.length
    rw [h]
    exact ⟨Nat.zero_le _, rfl⟩
  · show (rangeLoop ceiling transport urls ceiling 0 ⟨b0, 0, false, none, 0⟩).n ≤ b0.length ∧
      (rangeLoop ceiling transport urls ceiling 0 ⟨b0, 0, false, none, 0⟩).buffer.length = b0.length
    rw [h]
    constructor
    · show (rangeDeliver (transport k).deliveries b 0).2 ≤ b0.length
      have := rangeDeliver_n_le (transport k).deliveries b 0 (Nat.zero_le _)
      omega
    · show (rangeDeliver (transport k).deliveries b 0).1.length = b0.length
      rw [rangeDeliver_length (transport k).deliveries b 0 (Nat.zero_le _), hb]

/-- Claim C10: range-fetch safety.  The engine's returned count never exceeds
the buffer length and the buffer's length is preserved (nothing is written
out of bounds); a single attempt (which always restarts its count at 0) fills
exactly `min (buffer length) (delivered bytes)` bytes, the filled prefix is
the delivered data and the rest of the buffer is untouched; the engine's
final state is either the untouched initial state or exactly the post-state
of its last attempt, so count and contents reflect only the final attempt
(no accumulation or dedup across attempts); and `fetchChunkRange` returns a
count bounded by the buffer length on the lookup-error path too. -/
theorem retriedFetchChunkData_buffer_safety :
    ∀ (ceiling : Nat) (transport : Nat → AttemptOutcome) (urls : List Unit)
      (b0 : List Nat) (ds : List (List Nat)) (b : List Nat)
      (lookup : Nat → Except Nat (List Unit)) (fileId : Nat),
      ((retriedFetchChunkData ceiling transport urls b0).n ≤ b0.length ∧
       (retriedFetchChunkData ceiling transport urls b0).buffer.length = b0.length) ∧
      ((rangeDeliver ds b 0).2 = min b.length ds.flatten.length ∧
       (rangeDeliver ds b 0).1 =
         ds.flatten.take (min b.length ds.flatten.length) ++
           b.drop (min b.length ds.flatten.length) ∧
       (rangeDeliver ds b 0).1.length = b.length) ∧
      (retriedFetchChunkData ceiling transport urls b0 = ⟨b0, 0, false, none, 0⟩ ∨
       ∃ k bprev, bprev.length = b0.length ∧
         retriedFetchChunkData ceiling transport urls b0 = attemptPost transport k bprev) ∧
      (fetchChunkRange lookup ceiling transport fileId b0).1 ≤ b0.length := by
  intro ceiling transport urls b0 ds b lookup fileId
  have h2 := rangeDeliver_shape ds b 0 (Nat.zero_le _)
  refine ⟨retriedFetch_nbound ceiling transport urls b0, ⟨?_, ?_, ?_⟩, ?_, ?_⟩
  · rw [h2]
    show min b.length (0 + ds.flatten.length) = min b.length ds.flatten.length
    omega
  · rw [h2]
    show b.take 0 ++ ds.flatten.take (min b.length (0 + ds.flatten.length) - 0) ++
        b.drop (min b.length (0 + ds.flatten.length)) = _
    simp
  · exact rangeDeliver_length ds b 0 (Nat.zero_le _)
  · exact rangeLoop_last ceiling transport urls b0.length ceiling 0
      ⟨b0, 0, false, none, 0⟩ rfl
  · cases hlk : lookup fileId with
    | error e =>
      simp [fetchChunkRange, hlk]
    | ok urls2 =>
      simp only [fetchChunkRange, hlk]
      exact (retriedFetch_nbound ceiling transport urls2 b0).1
